import Mathlib

/-!
# Verification of the HTML-to-MDX conversion pipeline

A shallow embedding, over `List Char` strings, of the blog repository's
conversion toolchain: `scripts/converter.js` (tag generation, image
resolution, content rewriting, frontmatter and filename generation),
`scripts/htmlParser.js` (metadata and image extraction),
`scripts/convertAll.js` (the batch driver) and `src/utils/posts.ts`
(slug extraction).  Strings are `List Char`; each definition mirrors the
named source function, with JavaScript library calls (`slugify`, the
`natural` tokenizer and Porter stemmer, `new Date(...)`) modelled on the
ASCII inputs the claims range over.
-/

namespace Blog

/-! ## Character classes (ASCII), written as membership in literal
     character lists so that finite facts about them are decidable -/

/-- The decimal digits. -/
def digitChars : List Char := ("0123456789").data

/-- The lower-case letters. -/
def lowerChars : List Char := ("abcdefghijklmnopqrstuvwxyz").data

/-- The upper-case letters. -/
def upperChars : List Char := ("ABCDEFGHIJKLMNOPQRSTUVWXYZ").data

/-- Decimal digit, the `[0-9]` class. -/
def isDigitC (c : Char) : Bool := digitChars.contains c

/-- ASCII lower-case letter, the `[a-z]` class. -/
def isLowerC (c : Char) : Bool := lowerChars.contains c

/-- ASCII upper-case letter, the `[A-Z]` class. -/
def isUpperC (c : Char) : Bool := upperChars.contains c

/-- ASCII letter, the `[a-zA-Z]` class. -/
def isAlphaC (c : Char) : Bool := isLowerC c || isUpperC c

/-- ASCII alphanumeric, the `[a-zA-Z0-9]` class. -/
def isAlnumC (c : Char) : Bool := isAlphaC c || isDigitC c

/-- JavaScript `\s` restricted to ASCII: space, tab, LF, VT, FF, CR. -/
def isWsC (c : Char) : Bool :=
  c = ' ' || c = '\t' || c = '\n' || c = '\x0b' || c = '\x0c' || c = '\r'

/-- JavaScript `\w` restricted to ASCII: alphanumeric or underscore. -/
def isWordC (c : Char) : Bool := isAlnumC c || c = '_'

/-- The upper-case/lower-case letter pairs used to model `toLowerCase()`. -/
def casePairs : List (Char × Char) := upperChars.zip lowerChars

/-- One character of JavaScript `toLowerCase()` (ASCII). -/
def toLowerChar (c : Char) : Char :=
  match casePairs.find? (fun p => p.1 == c) with
  | some p => p.2
  | none => c

/-- JavaScript `toLowerCase()` on an ASCII string. -/
def toLowerL (s : List Char) : List Char := s.map toLowerChar

/-! ## Generic list-of-char utilities shared by the embeddings -/

/-- Membership test by `==`, the model of JavaScript `Array.includes`. -/
def elemL (x : List Char) (xs : List (List Char)) : Bool := xs.any (fun y => y == x)

/-- Drop trailing whitespace: a character is kept unless it is whitespace
    and everything after it was dropped. -/
def dropTrailingWs : List Char → List Char
  | [] => []
  | c :: rest =>
    if (dropTrailingWs rest).isEmpty && isWsC c then [] else c :: dropTrailingWs rest

/-- JavaScript `String.trim()`: strip whitespace from both ends. -/
def trimWs (s : List Char) : List Char :=
  dropTrailingWs (s.dropWhile isWsC)

/-- Everything after the last `/`, the common meaning of
    `split('/').pop()` and `path.basename` on the slash-free or URL-like
    strings this pipeline handles. -/
def lastComponent (s : List Char) : List Char :=
  (s.reverse.takeWhile (fun c => c ≠ '/')).reverse

/-- Boolean test that `pat` begins `s`. -/
def beginsWith : List Char → List Char → Bool
  | [], _ => true
  | _ :: _, [] => false
  | p :: ps, c :: cs => p == c && beginsWith ps cs

/-- Boolean substring test, the model of JavaScript `String.includes`. -/
def containsSub (s pat : List Char) : Bool :=
  match s with
  | [] => beginsWith pat []
  | _ :: rest => beginsWith pat s || containsSub rest pat

/-- JavaScript `String.replace(pat, repl)` with a plain-string pattern:
    replace the first occurrence only. -/
def replaceFirst (pat repl : List Char) : List Char → List Char
  | [] => if beginsWith pat [] then repl else []
  | c :: cs =>
    if beginsWith pat (c :: cs) then repl ++ (c :: cs).drop pat.length
    else c :: replaceFirst pat repl cs

/-! ## The `slugify` npm package, as called with `{ lower: true, strict: true }`

`generateFilename` in `scripts/converter.js` calls
`slugify(title, { lower: true, strict: true })`.  The package maps each
character through its charmap (on ASCII: `$ % & < > |` expand to words,
the replacement character `-` becomes a space), drops characters its
`remove` regex rejects, then — because `strict` — drops everything that is
not `[A-Za-z0-9\s]`, trims, collapses every whitespace run to a single
`-`, and lower-cases.  The composition of the charmap, `remove` and
`strict` stages keeps exactly the alphanumerics, whitespace, and the word
expansions; `slugMapChar` is that composition, per character. -/

def slugMapChar (c : Char) : List Char :=
  if c = '-' then [' ']
  else if c = '$' then ("dollar").data
  else if c = '%' then ("percent").data
  else if c = '&' then ("and").data
  else if c = '<' then ("less").data
  else if c = '>' then ("greater").data
  else if c = '|' then ("or").data
  else if isAlnumC c || isWsC c then [c]
  else []

/-- Collapse every whitespace run to a single `-` (the `prevWs` flag says a
    run is already open); the model of `replace(/\s+/g, '-')`. -/
def collapseWsAux : Bool → List Char → List Char
  | _, [] => []
  | prevWs, c :: rest =>
    if isWsC c then
      if prevWs then collapseWsAux true rest
      else '-' :: collapseWsAux true rest
    else c :: collapseWsAux false rest

/-- The npm `slugify` with `{ lower: true, strict: true }`, on ASCII input. -/
def slugify (title : List Char) : List Char :=
  toLowerL (collapseWsAux false (trimWs (title.flatMap slugMapChar)))

/-- Modelled from the claim's words, for comparison with `slugify`: slugification
    "lower-cases, collapses runs of non-alphanumeric characters to a single
    hyphen, and trims edge hyphens". -/
def slugSpecCollapse : Bool → List Char → List Char
  | _, [] => []
  | prevBad, c :: rest =>
    if isAlnumC c then c :: slugSpecCollapse false rest
    else if prevBad then slugSpecCollapse true rest
    else '-' :: slugSpecCollapse true rest

/-- Modelled from the claim's words (the comparison definition for C6): the
    slug the claim describes. -/
def slugSpec (title : List Char) : List Char :=
  let collapsed := slugSpecCollapse false (toLowerL title)
  ((collapsed.dropWhile (fun c => c = '-')).reverse.dropWhile (fun c => c = '-')).reverse

/-- Two adjacent hyphens occur somewhere in the string. -/
def hasDoubleHyphen : List Char → Bool
  | c1 :: c2 :: rest => (c1 == '-' && c2 == '-') || hasDoubleHyphen (c2 :: rest)
  | _ => false

/-! ## Filename generation (`converter.js` `generateFilename`) and slug
     extraction (`posts.ts` `getSlugFromFilename`) -/

/-- `generateFilename(date, title)` from `scripts/converter.js`:
    `` `${date}-${slug}.mdx` `` with `slug = slugify(title, {lower, strict})`. -/
def generateFilename (date title : List Char) : List Char :=
  date ++ ('-' :: slugify title) ++ (".mdx").data

/-- Strip a leading `YYYY-MM-DD-` if present: the model of the `posts.ts`
    replace call whose pattern is four digits, hyphen, two digits, hyphen,
    two digits, hyphen, anchored at the start. -/
def stripLeadingDate (s : List Char) : List Char :=
  match s with
  | y1 :: y2 :: y3 :: y4 :: h1 :: m1 :: m2 :: h2 :: d1 :: d2 :: h3 :: rest =>
    if isDigitC y1 && isDigitC y2 && isDigitC y3 && isDigitC y4 && h1 = '-'
        && isDigitC m1 && isDigitC m2 && h2 = '-'
        && isDigitC d1 && isDigitC d2 && h3 = '-'
    then rest
    else s
  | _ => s

/-- `getSlugFromFilename` from `src/utils/posts.ts`: drop the path, remove the
    first `.mdx`, strip a leading date prefix. -/
def getSlugFromFilename (filename : List Char) : List Char :=
  stripLeadingDate (replaceFirst (".mdx").data [] (lastComponent filename))

/-! ## Metadata extraction (`scripts/htmlParser.js` `extractMetadata`) -/

/-- The sentinel strings of `extractMetadata`. -/
def unknownTitle : List Char := ("Unknown title").data

/-- Sentinel for a missing author. -/
def unknownAuthor : List Char := ("Unknown author").data

/-- Sentinel for a missing or unparseable date. -/
def unknownDate : List Char := ("Unknown date").data

/-- Sentinel for the hero image before image processing. -/
def unknownImage : List Char := ("Unknown image").data

/-- JavaScript `s || d` on strings: the fallback fires exactly on the empty
    string. -/
def orEmpty (s d : List Char) : List Char := if s = [] then d else s

/-- Numeric value of two digit characters. -/
def twoDigits (a b : Char) : Nat := 10 * (a.toNat - 48) + (b.toNat - 48)

/-- Valid `HH:MM(:SS(.mmm)?)?Z` tail of an ISO timestamp. -/
def isoTimeTail : List Char → Bool
  | [] => true
  | 'T' :: h1 :: h2 :: c1 :: n1 :: n2 :: rest =>
    isDigitC h1 && isDigitC h2 && c1 = ':' && isDigitC n1 && isDigitC n2
      && twoDigits h1 h2 ≤ 23 && twoDigits n1 n2 ≤ 59
      && (match rest with
          | ['Z'] => true
          | ':' :: s1 :: s2 :: more =>
            isDigitC s1 && isDigitC s2 && twoDigits s1 s2 ≤ 59
              && (match more with
                  | ['Z'] => true
                  | '.' :: f1 :: f2 :: f3 :: ['Z'] => isDigitC f1 && isDigitC f2 && isDigitC f3
                  | _ => false)
          | _ => false)
  | _ => false

/-- Model of `new Date(s).toISOString().split('T')[0]` restricted to ISO
    `YYYY-MM-DD` date-only and `YYYY-MM-DDTHH:MM(:SS(.mmm)?)?Z` inputs, the
    formats Medium exports carry; any other input counts as unparseable
    (`new Date` yields an invalid date there or needs timezone arithmetic
    the pipeline never relies on), and the caller's catch turns that into
    the `Unknown date` sentinel. -/
def jsDateToIso (s : List Char) : Option (List Char) :=
  match s with
  | y1 :: y2 :: y3 :: y4 :: a1 :: m1 :: m2 :: a2 :: d1 :: d2 :: rest =>
    if isDigitC y1 && isDigitC y2 && isDigitC y3 && isDigitC y4 && a1 = '-'
        && isDigitC m1 && isDigitC m2 && a2 = '-'
        && isDigitC d1 && isDigitC d2
        && 1 ≤ twoDigits m1 m2 && twoDigits m1 m2 ≤ 12
        && 1 ≤ twoDigits d1 d2 && twoDigits d1 d2 ≤ 31
        && isoTimeTail rest
    then some [y1, y2, y3, y4, '-', m1, m2, '-', d1, d2]
    else none
  | _ => none

/-- The four metadata fields `extractMetadata` produces. -/
structure Metadata where
  title : List Char
  author : List Char
  date : List Char
  heroImage : List Char
deriving DecidableEq, Repr

/-- What the parser's selectors saw in one document: the text of
    `h1.p-name`, the text of `a.p-author.h-card`, and the `datetime`
    attribute of `time.dt-published`; `none` when the marker is absent
    (cheerio's `text()` on an empty selection is `''`, `attr` is
    `undefined`). -/
structure RawDoc where
  pName : Option (List Char)
  pAuthor : Option (List Char)
  dtPublished : Option (List Char)
deriving DecidableEq, Repr

/-- `extractMetadata` from `scripts/htmlParser.js`: trimmed text with an
    `Unknown ...` fallback for title and author; for the date, the
    `datetime` attribute run through `new Date`/`toISOString` with the
    parse failure caught and the sentinel kept. -/
def extractMetadata (doc : RawDoc) : Metadata where
  title := orEmpty (trimWs (doc.pName.getD [])) unknownTitle
  author := orEmpty (trimWs (doc.pAuthor.getD [])) unknownAuthor
  date :=
    match doc.dtPublished with
    | none => unknownDate
    | some dt => if dt = [] then unknownDate else (jsDateToIso dt).getD unknownDate
  heroImage := unknownImage

/-! ## Image extraction (`htmlParser.js` `extractImages`) and resolution
     (`converter.js` `processImages`) -/

/-- One image reference as `extractImages` collects it (we keep the fields
    the converter reads: the source URL and the first-in-document flag). -/
structure ImageIn where
  src : List Char
  isFirst : Bool
deriving DecidableEq, Repr

/-- `extractImages`, indexed: `isFirst` marks index 0. -/
def extractImagesGo (i : Nat) : List (List Char) → List ImageIn
  | [] => []
  | s :: rest => { src := s, isFirst := i == 0 } :: extractImagesGo (i + 1) rest

/-- `extractImages` from `scripts/htmlParser.js`, over the list of `img`
    source URLs of the body in document order. -/
def extractImages (srcs : List (List Char)) : List ImageIn :=
  extractImagesGo 0 srcs

/-- The local path stem used by `processImages`. -/
def imagesPosts : List Char := ("/images/posts/").data

/-- One processed image record, as `processImages` pushes it. -/
structure PImage where
  src : List Char
  isFirst : Bool
  localPath : List Char
  localFileExists : Bool
  originalSrc : List Char
deriving DecidableEq, Repr

/-- The loop of `processImages`: `local` is the listing of the local images
    directory, `hero` the accumulator that starts at the sentinel and is
    set only when `image.isFirst && localFileExists` finds it still unset. -/
def processImagesGo (localDir : List (List Char)) :
    List ImageIn → List Char → List PImage × List Char
  | [], hero => ([], hero)
  | image :: rest, hero =>
    let filename := lastComponent image.src
    let localPath := imagesPosts ++ filename
    let ex := elemL filename localDir
    let hero1 := if image.isFirst && ex && (hero == unknownImage) then localPath else hero
    let out := processImagesGo localDir rest hero1
    ({ src := image.src, isFirst := image.isFirst, localPath := localPath,
       localFileExists := ex, originalSrc := image.src } :: out.1, out.2)

/-- `processImages` from `scripts/converter.js` (the success path, with the
    images directory already listed). -/
def processImages (localDir : List (List Char)) (images : List ImageIn) :
    List PImage × List Char :=
  processImagesGo localDir images unknownImage

/-- Modelled from the claim's words (the comparison definition for C3): the
    local path of the first image in document order that resolves locally,
    or the sentinel when none does. -/
def heroSpec (localDir : List (List Char)) : List (List Char) → List Char
  | [] => unknownImage
  | s :: rest =>
    if elemL (lastComponent s) localDir then imagesPosts ++ lastComponent s
    else heroSpec localDir rest

/-! ## The content rewriter (`converter.js` `convertContentToMDX`)

The body is modelled as a sequence of the node kinds the claims quantify
over: heading elements (with their level and text), image elements (with
their `src`), and runs of already-converted or plain text.  The rewriter's
handling of emphasis, links, lists, quotes and code blocks acts on node
kinds outside this fragment and commutes with everything below, so it is
not part of the model; no claim mentions those nodes. -/

inductive BNode where
  | img (src : List Char)
  | heading (lvl : Nat) (txt : List Char)
  | txt (s : List Char)
deriving DecidableEq, Repr

/-- The `img` sources of a body, in document order — exactly what
    `extractImages` collects from the same content section. -/
def imgSrcs (body : List BNode) : List (List Char) :=
  body.filterMap (fun n => match n with | .img s => some s | _ => none)

/-- The title-duplicate test of the rewriter's first pass:
    `$('h1, h2, h3')` nodes whose trimmed text is under 100 characters. -/
def isShortTitleHeading (n : BNode) : Bool :=
  match n with
  | .heading l t => (l == 1 || l == 2 || l == 3) && (trimWs t).length < 100
  | _ => false

/-- Pass 1 of `convertContentToMDX`: remove likely title duplicates. -/
def removeTitleDups (body : List BNode) : List BNode :=
  body.filter (fun n => !(isShortTitleHeading n))

/-- The Medium CDN host tested by the rewriter's fallback branch. -/
def mediumCdn : List Char := ("cdn-images-1.medium.com").data

/-- The fallback branch of the image pass: an image not matched (or not
    resolved) in the processed list keeps its element; if its URL is a
    Medium CDN one whose basename is present locally, its `src` is
    rewritten to the local path. -/
def mediumFallback (localDir : List (List Char)) (src : List Char) : Option (List Char) :=
  if containsSub src mediumCdn && elemL (lastComponent src) localDir
  then some (imagesPosts ++ lastComponent src)
  else some src

/-- The per-image decision of pass 2: look the `src` up among the processed
    images; a resolved first (hero) image is removed, another resolved
    image gets its local path, everything else goes to the CDN fallback.
    `none` means the element is deleted. -/
def rewriteImg (localDir : List (List Char)) (ps : List PImage) (src : List Char) :
    Option (List Char) :=
  match ps.find? (fun p => p.originalSrc == src) with
  | some p =>
    if p.localFileExists then (if p.isFirst then none else some p.localPath)
    else mediumFallback localDir src
  | none => mediumFallback localDir src

/-- Pass 2 of `convertContentToMDX`: rewrite or delete each image element. -/
def rewriteImgsPass (localDir : List (List Char)) (ps : List PImage) (body : List BNode) :
    List BNode :=
  body.filterMap (fun n =>
    match n with
    | .img s => (rewriteImg localDir ps s).map BNode.img
    | other => some other)

/-- `lvl` hash characters. -/
def hashes (lvl : Nat) : List Char := List.replicate lvl '#'

/-- The markdown form `convertHTMLToMarkdown` emits for one heading. -/
def mdHeading (lvl : Nat) (t : List Char) : List Char :=
  hashes lvl ++ (' ' :: t) ++ ['\n']

/-- Pass 3, the heading part of `convertHTMLToMarkdown`: h3 through h6
    become hash headings (the source runs one `each` loop per level; on a
    flat node list they are one map). -/
def convertHeadingNode (n : BNode) : BNode :=
  match n with
  | .heading l t => if 3 ≤ l && l ≤ 6 then .txt (mdHeading l t) else .heading l t
  | other => other

/-- The heading conversion pass over the body. -/
def convertHeadingsPass (body : List BNode) : List BNode :=
  body.map convertHeadingNode

/-- The node-level pipeline of `convertContentToMDX` in source order:
    title-duplicate removal, then the image pass, then heading
    conversion. -/
def rewriteBody (localDir : List (List Char)) (ps : List PImage) (body : List BNode) :
    List BNode :=
  convertHeadingsPass (rewriteImgsPass localDir ps (removeTitleDups body))

/-- The action of the whole node pipeline on a single node; `rewriteBody`
    is `filterMap` of this (proved below). -/
def nodeStep (localDir : List (List Char)) (ps : List PImage) (n : BNode) : Option BNode :=
  if isShortTitleHeading n then none
  else
    match n with
    | .img s => (rewriteImg localDir ps s).map BNode.img
    | .heading l t => some (convertHeadingNode (.heading l t))
    | .txt s => some (.txt s)

/-- Serialization of the final node list, as `$('body').html()` leaves it:
    converted text passes through, a surviving image element prints as
    HTML, a surviving (long h1/h2) heading is flattened by the cleanup
    pass to its trimmed text between blank lines. -/
def serializeNode (n : BNode) : List Char :=
  match n with
  | .txt s => s
  | .img s => ("<img src=\"").data ++ s ++ ("\">").data
  | .heading _ t => ('\n' :: '\n' :: trimWs t) ++ ['\n', '\n']

/-- Serialize a node list. -/
def serializeNodes (body : List BNode) : List Char :=
  body.flatMap serializeNode

/-- The HTML-entity pairs decoded by `cleanHTMLText`. -/
def entityPairs : List (List Char × List Char) :=
  [(("&nbsp;").data, [' ']), (("&amp;").data, ['&']), (("&lt;").data, ['<']),
   (("&gt;").data, ['>']), (("&quot;").data, ['"']), (("&#39;").data, ['\'']),
   (("&apos;").data, ['\''])]

/-- Global replace of one nonempty pattern: scan left to right, replace
    each occurrence and continue after it, as `replace` with a global
    plain-string pattern does.  The `fuel` argument only makes the
    recursion structural; every step consumes at least one input
    character, so a fuel of the input's length never runs out. -/
def replaceAllGo (pat repl : List Char) : List Char → Nat → List Char
  | s, 0 => s
  | [], _ + 1 => []
  | c :: cs, fuel + 1 =>
    if beginsWith pat (c :: cs) then
      repl ++ replaceAllGo pat repl ((c :: cs).drop pat.length) fuel
    else c :: replaceAllGo pat repl cs fuel

/-- Replace every occurrence of `pat` in `s` by `repl`. -/
def replaceAll (pat repl s : List Char) : List Char :=
  replaceAllGo pat repl s s.length

/-- Collapse runs of spaces and tabs to a single space, the model of
    `replace` with the space-or-tab-run pattern. -/
def collapseSpaceRuns : Bool → List Char → List Char
  | _, [] => []
  | prev, c :: rest =>
    if c = ' ' || c = '\t' then
      if prev then collapseSpaceRuns true rest else ' ' :: collapseSpaceRuns true rest
    else c :: collapseSpaceRuns false rest

/-- Truncate every newline run to at most two newlines, the model of
    `replace` with the three-or-more-newlines pattern. -/
def capNewlineRuns (seen : Nat) : List Char → List Char
  | [] => []
  | c :: rest =>
    if c = '\n' then
      if seen < 2 then '\n' :: capNewlineRuns (seen + 1) rest else capNewlineRuns seen rest
    else c :: capNewlineRuns 0 rest

/-- `cleanHTMLText` from `scripts/converter.js`: entity decoding, space-run
    and newline-run normalization, and the final trim.  The three
    navigation-link line-breaking replacements (which insert a newline
    between immediately adjacent markdown links) act only on link
    adjacency; no claim depends on them and they are modelled as the
    identity. -/
def cleanHTMLText (s : List Char) : List Char :=
  let decoded := entityPairs.foldl (fun acc pr => replaceAll pr.1 pr.2 acc) s
  trimWs (capNewlineRuns 0 (collapseSpaceRuns false decoded))

/-- `convertContentToMDX` from `scripts/converter.js`, over the modelled
    node fragment: the three passes, serialization, and the final text
    normalization. -/
def convertContentToMDX (localDir : List (List Char)) (ps : List PImage)
    (body : List BNode) : List Char :=
  cleanHTMLText (serializeNodes (rewriteBody localDir ps body))

/-! ## Frontmatter, `convertFile`, and the batch driver -/

/-- Join the quoted tags with commas: the model of
    `tags.map(t => quoted).join(', ')`. -/
def quotedTags : List (List Char) → List Char
  | [] => []
  | [t] => '"' :: t ++ ['"']
  | t :: rest => ('"' :: t ++ ['"', ',', ' ']) ++ quotedTags rest

/-- The commented-out placeholder `generateFrontmatter` emits when no tags
    were generated. -/
def noTagsLine : List Char := ("# tags: [] # No tags generated").data

/-- `generateFrontmatter` from `scripts/converter.js`. -/
def generateFrontmatter (md : Metadata) (tags : List (List Char)) : List Char :=
  let tagsLine :=
    if tags.length > 0 then ("tags: [").data ++ quotedTags tags ++ [']']
    else noTagsLine
  ("---\ntitle: \"").data ++ md.title
    ++ ("\"\nauthor: \"").data ++ md.author
    ++ ("\"\ndate: \"").data ++ md.date
    ++ ("\"\nheroImage: \"").data ++ md.heroImage
    ++ ("\"\n").data ++ tagsLine ++ ("\n---").data

/-- What `MediumHTMLParser.parseFile` hands to the converter: the metadata
    selector results and the body node list (the parser's `images` array is
    recomputed here from the same body, as `extractImages` reads the same
    content section). -/
structure ParsedDoc where
  raw : RawDoc
  body : List BNode
deriving DecidableEq, Repr

/-- The successful result record of `convertFile`. -/
structure ConvResult where
  filename : List Char
  content : List Char
  metadata : Metadata
  tags : List (List Char)
deriving DecidableEq, Repr

/-- `convertFile` from `scripts/converter.js` (the success path): parse,
    skip tag generation (`const tags = []` in the source), process images,
    rewrite the body, build frontmatter and filename, and concatenate
    frontmatter, a blank line, and the body. -/
def convertFile (localDir : List (List Char)) (doc : ParsedDoc) : ConvResult :=
  let md0 := extractMetadata doc.raw
  let tags : List (List Char) := []
  let pr := processImages localDir (extractImages (imgSrcs doc.body))
  let mdx := convertContentToMDX localDir pr.1 doc.body
  let md := { md0 with heroImage := pr.2 }
  let fm := generateFrontmatter md tags
  { filename := generateFilename md.date md.title
    content := fm ++ ('\n' :: '\n' :: mdx)
    metadata := md
    tags := tags }

/-- Write-with-overwrite into the output directory, the semantics of
    `fs.writeFile`: the directory is a name-to-content map. -/
def writeFile (dir : List (List Char × List Char)) (name content : List Char) :
    List (List Char × List Char) :=
  (name, content) :: dir.filter (fun e => !(e.1 == name))

/-- Look a produced file up by name. -/
def readDir (dir : List (List Char × List Char)) (name : List Char) :
    Option (List Char) :=
  (dir.find? (fun e => e.1 == name)).map (fun e => e.2)

/-- The batch state of `convertAllFiles`: the output directory plus the
    success and skip counters the summary prints. -/
structure BatchState where
  dir : List (List Char × List Char)
  successCount : Nat
  skipCount : Nat
deriving DecidableEq, Repr

/-- One iteration of the `convertAllFiles` loop: convert, then consult the
    `existingMDX` listing — taken once before the loop and never updated —
    to decide between skip and write. -/
def batchStep (localDir : List (List Char)) (existingMDX : List (List Char))
    (st : BatchState) (doc : ParsedDoc) : BatchState :=
  let r := convertFile localDir doc
  if elemL r.filename existingMDX then
    { st with skipCount := st.skipCount + 1 }
  else
    { st with dir := writeFile st.dir r.filename r.content,
              successCount := st.successCount + 1 }

/-- `convertAllFiles` from `scripts/convertAll.js` (the success path over
    already-parsed documents): fold the loop body over the batch, starting
    from an empty set of writes. -/
def convertAllFiles (localDir : List (List Char)) (existingMDX : List (List Char))
    (docs : List ParsedDoc) : BatchState :=
  docs.foldl (batchStep localDir existingMDX) { dir := [], successCount := 0, skipCount := 0 }

/-! ## The `natural` word tokenizer and Porter stemmer

`generateTags` calls `new natural.WordTokenizer()` (split on runs of
non-word characters) and `natural.PorterStemmer` (lower-case the token,
then the standard Porter 1980 algorithm).  Both are modelled here on the
ASCII, all-alphabetic tokens that survive the classifier's filters. -/

/-- Character at an index, of an out-of-range placeholder. -/
def charAt (w : List Char) (i : Nat) : Char := w.getD i ' '

/-- The five vowel letters. -/
def isVowelLetter (c : Char) : Bool :=
  c = 'a' || c = 'e' || c = 'i' || c = 'o' || c = 'u'

/-- Porter's consonant test at an index: not a vowel letter, and a `y` is a
    consonant exactly when it does not follow a consonant. -/
def isConsAt (w : List Char) : Nat → Bool
  | 0 =>
    let c := charAt w 0
    !(isVowelLetter c)
  | i + 1 =>
    let c := charAt w (i + 1)
    if isVowelLetter c then false
    else if c = 'y' then !(isConsAt w i)
    else true

/-- Porter's measure `m`: the number of vowel-to-consonant transitions,
    i.e. the `m` of the form `C? (VC)^m V?`. -/
def measureP (w : List Char) : Nat :=
  (List.range w.length).countP
    (fun i => decide (0 < i) && isConsAt w i && !(isConsAt w (i - 1)))

/-- The stem contains a vowel (`*v*`). -/
def hasVowel (w : List Char) : Bool :=
  (List.range w.length).any (fun i => !(isConsAt w i))

/-- The stem ends in a double consonant (`*d`). -/
def endsDoubleC (w : List Char) : Bool :=
  decide (2 ≤ w.length) && charAt w (w.length - 1) == charAt w (w.length - 2)
    && isConsAt w (w.length - 1)

/-- The stem ends consonant-vowel-consonant, final consonant not `w`, `x`
    or `y` (`*o`). -/
def endsCVC (w : List Char) : Bool :=
  decide (3 ≤ w.length) && isConsAt w (w.length - 3) && !(isConsAt w (w.length - 2))
    && isConsAt w (w.length - 1)
    && !(charAt w (w.length - 1) = 'w' || charAt w (w.length - 1) = 'x'
         || charAt w (w.length - 1) = 'y')

/-- Suffix test. -/
def endsWithL (w suf : List Char) : Bool := beginsWith suf.reverse w.reverse

/-- Drop the last `k` characters. -/
def dropLastN (w : List Char) (k : Nat) : List Char := w.take (w.length - k)

/-- Replace a length-`k` suffix. -/
def replaceSuffix (w : List Char) (k : Nat) (rep : List Char) : List Char :=
  dropLastN w k ++ rep

/-- Porter step 1a: plural endings. -/
def step1a (w : List Char) : List Char :=
  if endsWithL w ("sses").data then replaceSuffix w 4 ("ss").data
  else if endsWithL w ("ies").data then replaceSuffix w 3 ("i").data
  else if endsWithL w ("ss").data then w
  else if endsWithL w ("s").data then dropLastN w 1
  else w

/-- The letter a stem ends with. -/
def lastChar (w : List Char) : Char := charAt w (w.length - 1)

/-- Porter step 1b cleanup after removing `ed` or `ing`. -/
def step1bPost (w : List Char) : List Char :=
  if endsWithL w ("at").data || endsWithL w ("bl").data || endsWithL w ("iz").data then
    w ++ ['e']
  else if endsDoubleC w && !(lastChar w = 'l' || lastChar w = 's' || lastChar w = 'z') then
    dropLastN w 1
  else if decide (measureP w = 1) && endsCVC w then w ++ ['e']
  else w

/-- Porter step 1b: `eed`, `ed`, `ing`. -/
def step1b (w : List Char) : List Char :=
  if endsWithL w ("eed").data then
    if 0 < measureP (dropLastN w 3) then replaceSuffix w 3 ("ee").data else w
  else if endsWithL w ("ed").data && hasVowel (dropLastN w 2) then
    step1bPost (dropLastN w 2)
  else if endsWithL w ("ing").data && hasVowel (dropLastN w 3) then
    step1bPost (dropLastN w 3)
  else w

/-- Porter step 1c: terminal `y` to `i` when the stem has a vowel. -/
def step1c (w : List Char) : List Char :=
  if endsWithL w ("y").data && hasVowel (dropLastN w 1) then replaceSuffix w 1 ("i").data
  else w

/-- Longest-matching-suffix rule application shared by steps 2, 3 and 4:
    the rules are listed in decreasing suffix length, and only the longest
    matching suffix has its condition tested, per the published
    algorithm. -/
def tryRules (cond : List Char → List Char → Bool)
    (rules : List (List Char × List Char)) (w : List Char) : List Char :=
  match rules.find? (fun r => endsWithL w r.1) with
  | some r =>
    if cond r.1 (dropLastN w r.1.length) then dropLastN w r.1.length ++ r.2 else w
  | none => w

/-- Porter step 2 suffix table, in decreasing suffix length. -/
def step2Rules : List (List Char × List Char) :=
  [(("ization").data, ("ize").data), (("ational").data, ("ate").data),
   (("iveness").data, ("ive").data), (("fulness").data, ("ful").data),
   (("ousness").data, ("ous").data),
   (("tional").data, ("tion").data), (("biliti").data, ("ble").data),
   (("entli").data, ("ent").data), (("ousli").data, ("ous").data),
   (("ation").data, ("ate").data), (("alism").data, ("al").data),
   (("aliti").data, ("al").data), (("iviti").data, ("ive").data),
   (("enci").data, ("ence").data), (("anci").data, ("ance").data),
   (("izer").data, ("ize").data), (("abli").data, ("able").data),
   (("alli").data, ("al").data), (("ator").data, ("ate").data),
   (("eli").data, ("e").data)]

/-- Porter step 2 (`m > 0`). -/
def step2 (w : List Char) : List Char :=
  tryRules (fun _ stem => decide (0 < measureP stem)) step2Rules w

/-- Porter step 3 suffix table, in decreasing suffix length. -/
def step3Rules : List (List Char × List Char) :=
  [(("icate").data, ("ic").data), (("ative").data, []),
   (("alize").data, ("al").data), (("iciti").data, ("ic").data),
   (("ical").data, ("ic").data), (("ness").data, []),
   (("ful").data, [])]

/-- Porter step 3 (`m > 0`). -/
def step3 (w : List Char) : List Char :=
  tryRules (fun _ stem => decide (0 < measureP stem)) step3Rules w

/-- Porter step 4 suffix table (all removals), in decreasing suffix
    length; `ion` additionally needs the stem to end in `s` or `t`. -/
def step4Rules : List (List Char × List Char) :=
  [(("ement").data, []),
   (("ance").data, []), (("ence").data, []), (("able").data, []),
   (("ible").data, []), (("ment").data, []),
   (("ant").data, []), (("ent").data, []), (("ion").data, []),
   (("ism").data, []), (("ate").data, []), (("iti").data, []),
   (("ous").data, []), (("ive").data, []), (("ize").data, []),
   (("al").data, []), (("er").data, []), (("ic").data, []),
   (("ou").data, [])]

/-- Porter step 4 (`m > 1`, with the `s`/`t` proviso on `ion`). -/
def step4 (w : List Char) : List Char :=
  tryRules
    (fun suf stem =>
      decide (1 < measureP stem)
        && (!(suf == ("ion").data) || lastChar stem = 's' || lastChar stem = 't'))
    step4Rules w

/-- Porter step 5a: drop a final `e` when `m > 1`, or when `m = 1` and the
    stem is not `*o`. -/
def step5a (w : List Char) : List Char :=
  if endsWithL w ("e").data then
    if 1 < measureP (dropLastN w 1) then dropLastN w 1
    else if measureP (dropLastN w 1) == 1 && !(endsCVC (dropLastN w 1)) then dropLastN w 1
    else w
  else w

/-- Porter step 5b: `ll` to `l` when `m > 1`. -/
def step5b (w : List Char) : List Char :=
  if decide (1 < measureP w) && endsDoubleC w && lastChar w = 'l' then dropLastN w 1
  else w

/-- The Porter 1980 stemmer. -/
def porterStem (w : List Char) : List Char :=
  step5b (step5a (step4 (step3 (step2 (step1c (step1b (step1a w)))))))

/-- `natural.PorterStemmer.stem`: lower-case, then Porter. -/
def stemJS (token : List Char) : List Char := porterStem (toLowerL token)

/-- The `natural.WordTokenizer` splitter: tokens are maximal runs of word
    characters (`cur` is the current run, reversed). -/
def tokenizeGo (cur : List Char) : List Char → List (List Char)
  | [] => if cur = [] then [] else [cur.reverse]
  | c :: rest =>
    if isWordC c then tokenizeGo (c :: cur) rest
    else if cur = [] then tokenizeGo [] rest
    else cur.reverse :: tokenizeGo [] rest

/-- Tokenize a string. -/
def wordTokenize (s : List Char) : List (List Char) := tokenizeGo [] s

/-! ## The Tag Classifier (`converter.js` `generateTags`) -/

/-- The fixed domain vocabulary `this.techTerms` of the converter. -/
def techTerms : List (List Char) :=
  [("javascript").data, ("python").data, ("react").data, ("node").data,
   ("api").data, ("database").data, ("algorithm").data,
   ("programming").data, ("development").data, ("software").data,
   ("code").data, ("testing").data, ("debugging").data,
   ("agile").data, ("kanban").data, ("scrum").data, ("devops").data,
   ("frontend").data, ("backend").data, ("mobile").data,
   ("web").data, ("design").data, ("ui").data, ("ux").data,
   ("performance").data, ("security").data, ("architecture").data]

/-- The classifier's token stream: the body text lower-cased, tokenized,
    and filtered to alphabetic tokens longer than three characters. -/
def tokensOf (text : List Char) : List (List Char) :=
  (wordTokenize (toLowerL text)).filter
    (fun t => decide (3 < t.length) && t.all isAlphaC)

/-- Add one stem occurrence to the frequency table (association list in
    first-occurrence order, the enumeration order of a JS object with
    string keys). -/
def bumpCount : List (List Char × Nat) → List Char → List (List Char × Nat)
  | [], k => [(k, 1)]
  | (k', c) :: rest, k =>
    if k' == k then (k', c + 1) :: rest else (k', c) :: bumpCount rest k

/-- The `wordCount` table of `generateTags`. -/
def countStems (tokens : List (List Char)) : List (List Char × Nat) :=
  tokens.foldl (fun m t => bumpCount m (stemJS t)) []

/-- The score of one stem.  The source computes `score = count`, doubles
    it when the stem is a tech term, and multiplies by `1.5` when the stem
    is longer than six characters (it tests `word.length` on the stem).
    Every such score is an exact multiple of one half, so the model stores
    scores doubled: `scoreOf w c` is exactly twice the source's score, an
    order- and equality-preserving representation that keeps the whole
    classifier computable by kernel reduction. -/
def scoreOf (w : List Char) (count : Nat) : Nat :=
  count * (if elemL w techTerms then 2 else 1) * (if 6 < w.length then 3 else 2)

/-- The `scoredWords` array of `generateTags` (scores doubled, see
    `scoreOf`). -/
def scoredWordsOf (text : List Char) : List (List Char × Nat) :=
  (countStems (tokensOf text)).map (fun p => (p.1, scoreOf p.1 p.2))

/-- Modelled from the claim's words (the comparison definition for C9): the
    score with the 1.5 length boost keyed on the surface token's length
    rather than the stem's, stored doubled like `scoreOf`. -/
def scoreSpecSurface (freq : Nat) (stem surface : List Char) : Nat :=
  freq * (if elemL stem techTerms then 2 else 1)
    * (if 6 < surface.length then 3 else 2)

/-- Stable insertion keeping descending score order: an element goes after
    every element whose score is at least its own, matching the stable
    `sort((a, b) => b.score - a.score)` (doubling scores preserves their
    order and their ties, so the sorted order is the source's). -/
def insertScored (x : List Char × Nat) : List (List Char × Nat) → List (List Char × Nat)
  | [] => [x]
  | y :: rest => if x.2 ≤ y.2 then y :: insertScored x rest else x :: y :: rest

/-- Stable sort by descending score. -/
def sortByScoreDesc (l : List (List Char × Nat)) : List (List Char × Nat) :=
  l.foldl (fun acc x => insertScored x acc) []

/-- Keep first occurrences, the `indexOf`-based duplicate filter. -/
def dedupFirstGo (seen : List (List Char)) : List (List Char) → List (List Char)
  | [] => []
  | x :: rest =>
    if elemL x seen then dedupFirstGo seen rest
    else x :: dedupFirstGo (x :: seen) rest

/-- Duplicate removal keeping the first occurrence. -/
def dedupFirst (l : List (List Char)) : List (List Char) := dedupFirstGo [] l

/-- The `topTags` array of `generateTags` before the fallback: sort by
    descending score, take the top 8, keep the words, deduplicate,
    truncate to 5. -/
def topTagsOf (text : List Char) : List (List Char) :=
  (dedupFirst (((sortByScoreDesc (scoredWordsOf text)).take 8).map (fun p => p.1))).take 5

/-- The three tags pushed when fewer than three were found. -/
def fallbackTags : List (List Char) :=
  [("development").data, ("programming").data, ("software").data]

/-- `generateTags` from `scripts/converter.js` (the main path; the
    enclosing catch, which returns a fixed four-tag list, fires only when
    a library call throws and is outside the model). -/
def generateTags (text : List Char) : List (List Char) :=
  let t := topTagsOf text
  (if t.length < 3 then t ++ fallbackTags else t).take 5

/-! ## Concrete documents used by the counterexamples and witnesses -/

/-- A parsed document titled `Hello` by `Ann`, dated, with a one-line body. -/
def cexDocA : ParsedDoc :=
  { raw := { pName := some ("Hello").data, pAuthor := some ("Ann").data,
             dtPublished := some ("2023-01-01").data },
    body := [.txt ("AAAA").data] }

/-- A parsed document with the same title and date but another author and
    body, so it converts to the same filename with different content. -/
def cexDocB : ParsedDoc :=
  { raw := { pName := some ("Hello").data, pAuthor := some ("Bob").data,
             dtPublished := some ("2023-01-01").data },
    body := [.txt ("BBBB").data] }

/-- The image directory listing used by the C4 counterexample. -/
def c4local : List (List Char) := [("a.png").data]

/-- Selector results for a document with no title marker, no author marker
    and an unparseable timestamp attribute. -/
def noMarkerDoc : RawDoc :=
  { pName := none, pAuthor := none, dtPublished := some ("not-a-date").data }

/-- The processed-image record produced for a lone, locally-resolving
    image `a.png` — the hero of the C4 witness body. -/
def c4pimg : PImage :=
  { src := ("a.png").data, isFirst := true,
    localPath := ("/images/posts/a.png").data, localFileExists := true,
    originalSrc := ("a.png").data }

/-- A body whose first and second images share one source URL. -/
def c4body : List BNode := [.img ("a.png").data, .img ("a.png").data]

/-! # Helper lemmas -/

theorem contains_iff_mem {l : List Char} {c : Char} : l.contains c = true ↔ c ∈ l := by
  simp [List.contains, List.elem_iff]

theorem elemL_iff {x : List Char} {xs : List (List Char)} : elemL x xs = true ↔ x ∈ xs := by
  constructor
  · intro h
    obtain ⟨y, hy, he⟩ := List.any_eq_true.mp h
    exact (beq_iff_eq.mp he) ▸ hy
  · intro h
    exact List.any_eq_true.mpr ⟨x, h, beq_iff_eq.mpr rfl⟩

theorem mem_of_mem_dropWhile {p : Char → Bool} {l : List Char} {c : Char}
    (h : c ∈ l.dropWhile p) : c ∈ l := by
  induction l with
  | nil => simp at h
  | cons a l ih =>
    by_cases hp : p a = true
    · rw [List.dropWhile_cons_of_pos hp] at h
      exact List.mem_cons_of_mem _ (ih h)
    · rw [List.dropWhile_cons_of_neg hp] at h
      exact h

theorem mem_of_mem_dropTrailingWs {l : List Char} {c : Char}
    (h : c ∈ dropTrailingWs l) : c ∈ l := by
  induction l with
  | nil => simp [dropTrailingWs] at h
  | cons a l ih =>
    unfold dropTrailingWs at h
    split at h
    · simp at h
    · rcases List.mem_cons.mp h with h1 | h2
      · exact h1 ▸ List.mem_cons_self a l
      · exact List.mem_cons_of_mem _ (ih h2)

theorem mem_of_mem_trimWs {l : List Char} {c : Char} (h : c ∈ trimWs l) : c ∈ l :=
  mem_of_mem_dropWhile (mem_of_mem_dropTrailingWs h)

theorem head?_dropWhile_false {p : Char → Bool} {l : List Char} {c : Char}
    (h : (l.dropWhile p).head? = some c) : p c = false := by
  induction l with
  | nil => simp [List.dropWhile] at h
  | cons a l ih =>
    by_cases hp : p a = true
    · rw [List.dropWhile_cons_of_pos hp] at h
      exact ih h
    · rw [List.dropWhile_cons_of_neg hp] at h
      simp at h
      rw [← h]
      exact Bool.eq_false_iff.mpr hp

theorem getLast?_cons_of_ne_nil {a : Char} {l : List Char} (h : l ≠ []) :
    (a :: l).getLast? = l.getLast? := by
  cases l with
  | nil => exact absurd rfl h
  | cons b m => simp [List.getLast?_cons_cons]

theorem getLast?_dropTrailingWs_false {l : List Char} {c : Char}
    (h : (dropTrailingWs l).getLast? = some c) : isWsC c = false := by
  induction l with
  | nil => simp [dropTrailingWs] at h
  | cons a l ih =>
    unfold dropTrailingWs at h
    split at h
    · simp at h
    · rename_i hcond
      cases hr : dropTrailingWs l with
      | nil =>
        rw [hr] at h
        simp at h
        rw [hr] at hcond
        simp at hcond
        rw [← h]
        exact hcond
      | cons b m =>
        rw [hr] at h
        rw [getLast?_cons_of_ne_nil (by simp)] at h
        rw [← hr] at h
        exact ih h

theorem getLast?_trimWs_false {l : List Char} {c : Char}
    (h : (trimWs l).getLast? = some c) : isWsC c = false :=
  getLast?_dropTrailingWs_false h

theorem head?_trimWs_false {l : List Char} {c : Char}
    (h : (trimWs l).head? = some c) : isWsC c = false := by
  unfold trimWs at h
  cases hd : l.dropWhile isWsC with
  | nil => rw [hd] at h; simp [dropTrailingWs] at h
  | cons a m =>
    rw [hd] at h
    unfold dropTrailingWs at h
    split at h
    · simp at h
    · simp at h
      rw [← h]
      have : (l.dropWhile isWsC).head? = some a := by rw [hd]; rfl
      exact head?_dropWhile_false this

/-! ## Facts about `toLowerChar` -/

theorem casePairs_snd_lower : ∀ p ∈ casePairs, p.2 ∈ lowerChars := by decide

theorem casePairs_fst_upper : ∀ p ∈ casePairs, p.1 ∈ upperChars := by decide

theorem upperChars_eq_map_fst : upperChars = casePairs.map Prod.fst := by decide

theorem toLowerChar_of_not_upper {c : Char} (h : isUpperC c = false) :
    toLowerChar c = c := by
  unfold toLowerChar
  cases hf : casePairs.find? (fun p => p.1 == c) with
  | none => rfl
  | some p =>
    exfalso
    have hm := List.mem_of_find?_eq_some hf
    have hp := List.find?_some hf
    simp only [beq_iff_eq] at hp
    have hu : c ∈ upperChars := hp ▸ casePairs_fst_upper p hm
    have := contains_iff_mem.mpr hu
    rw [isUpperC] at h
    rw [h] at this
    exact Bool.false_ne_true this

theorem toLowerChar_mem_lower {c : Char} (h : isUpperC c = true) :
    toLowerChar c ∈ lowerChars := by
  unfold toLowerChar
  cases hf : casePairs.find? (fun p => p.1 == c) with
  | some p => exact casePairs_snd_lower p (List.mem_of_find?_eq_some hf)
  | none =>
    exfalso
    have hall := List.find?_eq_none.mp hf
    have hc : c ∈ upperChars := contains_iff_mem.mp h
    rw [upperChars_eq_map_fst] at hc
    obtain ⟨p, hp, he⟩ := List.mem_map.mp hc
    exact hall p hp (by simp [he])

theorem toLowerChar_not_upper (c : Char) : isUpperC (toLowerChar c) = false := by
  cases hu : isUpperC c with
  | true =>
    have hm := toLowerChar_mem_lower hu
    have : ∀ x ∈ lowerChars, isUpperC x = false := by decide
    exact this _ hm
  | false => rw [toLowerChar_of_not_upper hu]; exact hu

theorem toLowerChar_hyphen_iff (c : Char) : (toLowerChar c = '-') ↔ c = '-' := by
  cases hu : isUpperC c with
  | true =>
    have hm := toLowerChar_mem_lower hu
    have h1 : ∀ x ∈ lowerChars, x ≠ '-' := by decide
    have h2 : ∀ x ∈ upperChars, x ≠ '-' := by decide
    constructor
    · intro h; exact absurd h (h1 _ hm)
    · intro h
      exfalso
      exact h2 c (contains_iff_mem.mp hu) h
  | false => rw [toLowerChar_of_not_upper hu]

/-! ## Character-set and edge facts about `slugify` -/

theorem slugMapChar_chars {c d : Char} (h : d ∈ slugMapChar c) :
    isAlnumC d = true ∨ isWsC d = true := by
  unfold slugMapChar at h
  repeat' split at h
  · simp at h; subst h; right; decide
  · have hx : ∀ x ∈ ("dollar").data, isAlnumC x = true := by decide
    exact Or.inl (hx d h)
  · have hx : ∀ x ∈ ("percent").data, isAlnumC x = true := by decide
    exact Or.inl (hx d h)
  · have hx : ∀ x ∈ ("and").data, isAlnumC x = true := by decide
    exact Or.inl (hx d h)
  · have hx : ∀ x ∈ ("less").data, isAlnumC x = true := by decide
    exact Or.inl (hx d h)
  · have hx : ∀ x ∈ ("greater").data, isAlnumC x = true := by decide
    exact Or.inl (hx d h)
  · have hx : ∀ x ∈ ("or").data, isAlnumC x = true := by decide
    exact Or.inl (hx d h)
  · rename_i hcond
    simp at h
    have hcond2 : isAlnumC c = true ∨ isWsC c = true := by simpa using hcond
    rw [h]
    exact hcond2
  · simp at h

theorem alnum_cases {c : Char} (h : isAlnumC c = true) :
    c ∈ lowerChars ∨ c ∈ upperChars ∨ c ∈ digitChars := by
  have h2 : (isLowerC c = true ∨ isUpperC c = true) ∨ isDigitC c = true := by
    simpa [isAlnumC, isAlphaC] using h
  rcases h2 with (h3 | h3) | h3
  · exact Or.inl (contains_iff_mem.mp h3)
  · exact Or.inr (Or.inl (contains_iff_mem.mp h3))
  · exact Or.inr (Or.inr (contains_iff_mem.mp h3))

theorem alnum_ne_hyphen {c : Char} (h : isAlnumC c = true) : c ≠ '-' := by
  have d1 : ∀ x ∈ lowerChars, x ≠ '-' := by decide
  have d2 : ∀ x ∈ upperChars, x ≠ '-' := by decide
  have d3 : ∀ x ∈ digitChars, x ≠ '-' := by decide
  rcases alnum_cases h with hm | hm | hm
  · exact d1 c hm
  · exact d2 c hm
  · exact d3 c hm

theorem alnum_not_ws {c : Char} (h : isAlnumC c = true) : isWsC c = false := by
  have d1 : ∀ x ∈ lowerChars, isWsC x = false := by decide
  have d2 : ∀ x ∈ upperChars, isWsC x = false := by decide
  have d3 : ∀ x ∈ digitChars, isWsC x = false := by decide
  rcases alnum_cases h with hm | hm | hm
  · exact d1 c hm
  · exact d2 c hm
  · exact d3 c hm

theorem toLowerChar_alnum {c : Char} (h : isAlnumC c = true) :
    isLowerC (toLowerChar c) = true ∨ isDigitC (toLowerChar c) = true := by
  rcases alnum_cases h with hm | hm | hm
  · have : isUpperC c = false := by
      have d : ∀ x ∈ lowerChars, isUpperC x = false := by decide
      exact d c hm
    rw [toLowerChar_of_not_upper this]
    exact Or.inl (contains_iff_mem.mpr hm)
  · have : isUpperC c = true := contains_iff_mem.mpr hm
    exact Or.inl (contains_iff_mem.mpr (toLowerChar_mem_lower this))
  · have : isUpperC c = false := by
      have d : ∀ x ∈ digitChars, isUpperC x = false := by decide
      exact d c hm
    rw [toLowerChar_of_not_upper this]
    exact Or.inr (contains_iff_mem.mpr hm)

theorem lower_or_digit_ne_hyphen {c : Char}
    (h : isLowerC c = true ∨ isDigitC c = true) : c ≠ '-' := by
  have d1 : ∀ x ∈ lowerChars, x ≠ '-' := by decide
  have d3 : ∀ x ∈ digitChars, x ≠ '-' := by decide
  rcases h with hm | hm
  · exact d1 c (contains_iff_mem.mp hm)
  · exact d3 c (contains_iff_mem.mp hm)

/-! ## Shape lemmas for `collapseWsAux` -/

theorem collapseWsAux_chars : ∀ (t : List Char) (b : Bool),
    (∀ c ∈ t, isAlnumC c = true ∨ isWsC c = true) →
    ∀ d ∈ collapseWsAux b t, isAlnumC d = true ∨ d = '-' := by
  intro t
  induction t with
  | nil => intro b _ d hd; simp [collapseWsAux] at hd
  | cons c rest ih =>
    intro b hcs d hd
    have hrest : ∀ x ∈ rest, isAlnumC x = true ∨ isWsC x = true :=
      fun x hx => hcs x (List.mem_cons_of_mem _ hx)
    by_cases hw : isWsC c = true
    · cases b with
      | true =>
        rw [show collapseWsAux true (c :: rest) = collapseWsAux true rest by
          simp [collapseWsAux, hw]] at hd
        exact ih true hrest d hd
      | false =>
        rw [show collapseWsAux false (c :: rest) = '-' :: collapseWsAux true rest by
          simp [collapseWsAux, hw]] at hd
        rcases List.mem_cons.mp hd with h1 | h2
        · exact Or.inr h1
        · exact ih true hrest d h2
    · rw [show collapseWsAux b (c :: rest) = c :: collapseWsAux false rest by
        simp [collapseWsAux, hw]] at hd
      rcases List.mem_cons.mp hd with h1 | h2
      · rcases hcs c (List.mem_cons_self c rest) with ha | hwc
        · exact Or.inl (h1 ▸ ha)
        · exact absurd hwc hw
      · exact ih false hrest d h2

theorem collapseWsAux_ne_nil : ∀ (t : List Char) (b : Bool) {z : Char},
    t.getLast? = some z → isWsC z = false → collapseWsAux b t ≠ [] := by
  intro t
  induction t with
  | nil => intro b z h _; simp at h
  | cons c rest ih =>
    intro b z hl hz
    by_cases hrn : rest = []
    · subst hrn
      have hcz : c = z := by simpa using hl
      have hwc : isWsC c = false := by rw [hcz]; exact hz
      rw [show collapseWsAux b [c] = c :: collapseWsAux false [] by
        simp [collapseWsAux, hwc]]
      simp
    · have hl2 : rest.getLast? = some z := by
        rw [getLast?_cons_of_ne_nil hrn] at hl; exact hl
      by_cases hw : isWsC c = true
      · cases b with
        | true =>
          rw [show collapseWsAux true (c :: rest) = collapseWsAux true rest by
            simp [collapseWsAux, hw]]
          exact ih true hl2 hz
        | false =>
          rw [show collapseWsAux false (c :: rest) = '-' :: collapseWsAux true rest by
            simp [collapseWsAux, hw]]
          simp
      · rw [show collapseWsAux b (c :: rest) = c :: collapseWsAux false rest by
          simp [collapseWsAux, hw]]
        simp

theorem collapseWsAux_getLast : ∀ (t : List Char) (b : Bool) {z : Char},
    (∀ c ∈ t, isAlnumC c = true ∨ isWsC c = true) →
    t.getLast? = some z → isWsC z = false →
    ∀ {y : Char}, (collapseWsAux b t).getLast? = some y → isAlnumC y = true := by
  intro t
  induction t with
  | nil => intro b z _ h _ y _; simp at h
  | cons c rest ih =>
    intro b z hcs hl hz y hy
    have hrest : ∀ x ∈ rest, isAlnumC x = true ∨ isWsC x = true :=
      fun x hx => hcs x (List.mem_cons_of_mem _ hx)
    by_cases hrn : rest = []
    · subst hrn
      have hcz : c = z := by simpa using hl
      have hwc : isWsC c = false := by rw [hcz]; exact hz
      rw [show collapseWsAux b [c] = c :: collapseWsAux false [] by
        simp [collapseWsAux, hwc]] at hy
      simp [collapseWsAux] at hy
      rcases hcs c (List.mem_cons_self c []) with ha | hw
      · exact hy ▸ ha
      · rw [hwc] at hw; exact absurd hw (by simp)
    · have hl2 : rest.getLast? = some z := by
        rw [getLast?_cons_of_ne_nil hrn] at hl; exact hl
      have hne : collapseWsAux true rest ≠ [] := collapseWsAux_ne_nil rest true hl2 hz
      have hne2 : collapseWsAux false rest ≠ [] := collapseWsAux_ne_nil rest false hl2 hz
      by_cases hw : isWsC c = true
      · cases b with
        | true =>
          rw [show collapseWsAux true (c :: rest) = collapseWsAux true rest by
            simp [collapseWsAux, hw]] at hy
          exact ih true hrest hl2 hz hy
        | false =>
          rw [show collapseWsAux false (c :: rest) = '-' :: collapseWsAux true rest by
            simp [collapseWsAux, hw]] at hy
          rw [getLast?_cons_of_ne_nil hne] at hy
          exact ih true hrest hl2 hz hy
      · rw [show collapseWsAux b (c :: rest) = c :: collapseWsAux false rest by
          simp [collapseWsAux, hw]] at hy
        rw [getLast?_cons_of_ne_nil hne2] at hy
        exact ih false hrest hl2 hz hy

theorem collapseWsAux_true_head : ∀ (t : List Char) {y : Char},
    (∀ c ∈ t, isAlnumC c = true ∨ isWsC c = true) →
    (collapseWsAux true t).head? = some y → isAlnumC y = true := by
  intro t
  induction t with
  | nil => intro y _ h; simp [collapseWsAux] at h
  | cons c rest ih =>
    intro y hcs hh
    have hrest : ∀ x ∈ rest, isAlnumC x = true ∨ isWsC x = true :=
      fun x hx => hcs x (List.mem_cons_of_mem _ hx)
    by_cases hw : isWsC c = true
    · rw [show collapseWsAux true (c :: rest) = collapseWsAux true rest by
        simp [collapseWsAux, hw]] at hh
      exact ih hrest hh
    · rw [show collapseWsAux true (c :: rest) = c :: collapseWsAux false rest by
        simp [collapseWsAux, hw]] at hh
      simp at hh
      rcases hcs c (List.mem_cons_self c rest) with ha | hwc
      · exact hh ▸ ha
      · exact absurd hwc hw

theorem collapseWsAux_noDH : ∀ (t : List Char) (b : Bool),
    (∀ c ∈ t, isAlnumC c = true ∨ isWsC c = true) →
    hasDoubleHyphen (collapseWsAux b t) = false := by
  intro t
  induction t with
  | nil => intro b _; rfl
  | cons c rest ih =>
    intro b hcs
    have hrest : ∀ x ∈ rest, isAlnumC x = true ∨ isWsC x = true :=
      fun x hx => hcs x (List.mem_cons_of_mem _ hx)
    by_cases hw : isWsC c = true
    · cases b with
      | true =>
        rw [show collapseWsAux true (c :: rest) = collapseWsAux true rest by
          simp [collapseWsAux, hw]]
        exact ih true hrest
      | false =>
        rw [show collapseWsAux false (c :: rest) = '-' :: collapseWsAux true rest by
          simp [collapseWsAux, hw]]
        cases hL : collapseWsAux true rest with
        | nil => rfl
        | cons y ys =>
          have hy : isAlnumC y = true := by
            apply collapseWsAux_true_head rest hrest
            rw [hL]; rfl
          have hyne : (y == '-') = false := beq_eq_false_iff_ne.mpr (alnum_ne_hyphen hy)
          unfold hasDoubleHyphen
          simp [hyne]
          rw [← hL]
          exact ih true hrest
    · rw [show collapseWsAux b (c :: rest) = c :: collapseWsAux false rest by
        simp [collapseWsAux, hw]]
      have hc : isAlnumC c = true := by
        rcases hcs c (List.mem_cons_self c rest) with ha | hwc
        · exact ha
        · exact absurd hwc hw
      cases hL : collapseWsAux false rest with
      | nil => rfl
      | cons y ys =>
        have hcne : (c == '-') = false := beq_eq_false_iff_ne.mpr (alnum_ne_hyphen hc)
        unfold hasDoubleHyphen
        simp [hcne]
        rw [← hL]
        exact ih false hrest

/-! ## The slug's character set and hyphen discipline -/

theorem getLast?_cons_ne_none (a : Char) (l : List Char) : (a :: l).getLast? ≠ none := by
  induction l generalizing a with
  | nil => simp
  | cons b m ih => rw [List.getLast?_cons_cons]; exact ih b

theorem getLast?_toLowerL (l : List Char) :
    (toLowerL l).getLast? = l.getLast?.map toLowerChar := by
  induction l with
  | nil => rfl
  | cons c rest ih =>
    cases rest with
    | nil => rfl
    | cons b m =>
      show (toLowerChar c :: toLowerL (b :: m)).getLast? = _
      rw [getLast?_cons_of_ne_nil (by simp [toLowerL]), ih, List.getLast?_cons_cons]

theorem toLowerChar_beq_hyphen (x : Char) : (toLowerChar x == '-') = (x == '-') := by
  by_cases h : x = '-'
  · rw [h, (toLowerChar_hyphen_iff '-').mpr rfl]
  · have h2 : toLowerChar x ≠ '-' := fun hc => h ((toLowerChar_hyphen_iff x).mp hc)
    rw [beq_eq_false_iff_ne.mpr h2, beq_eq_false_iff_ne.mpr h]

theorem hasDoubleHyphen_toLowerL (l : List Char) :
    hasDoubleHyphen (toLowerL l) = hasDoubleHyphen l := by
  induction l with
  | nil => rfl
  | cons c rest ih =>
    cases rest with
    | nil => rfl
    | cons b m =>
      show hasDoubleHyphen (toLowerChar c :: toLowerChar b :: toLowerL m) = _
      have hl : toLowerChar b :: toLowerL m = toLowerL (b :: m) := rfl
      unfold hasDoubleHyphen
      rw [hl, ih, toLowerChar_beq_hyphen, toLowerChar_beq_hyphen]

theorem slug_source_chars (title : List Char) :
    ∀ c ∈ trimWs (title.flatMap slugMapChar), isAlnumC c = true ∨ isWsC c = true := by
  intro c hc
  have h2 := mem_of_mem_trimWs hc
  obtain ⟨x, hx, hmem⟩ := List.mem_flatMap.mp h2
  exact slugMapChar_chars hmem

theorem slugify_chars (title : List Char) :
    ∀ d ∈ slugify title, isLowerC d = true ∨ isDigitC d = true ∨ d = '-' := by
  intro d hd
  unfold slugify at hd
  obtain ⟨y, hy, he⟩ := List.mem_map.mp hd
  have hy2 := collapseWsAux_chars _ false (slug_source_chars title) y hy
  rcases hy2 with ha | hh
  · rcases toLowerChar_alnum ha with h | h
    · exact Or.inl (he ▸ h)
    · exact Or.inr (Or.inl (he ▸ h))
  · right; right; rw [← he, hh]; exact (toLowerChar_hyphen_iff ('-')).mpr rfl

theorem slugify_head_ne (title : List Char) : (slugify title).head? ≠ some '-' := by
  unfold slugify
  rw [show toLowerL (collapseWsAux false (trimWs (title.flatMap slugMapChar)))
        = (collapseWsAux false (trimWs (title.flatMap slugMapChar))).map toLowerChar
      from rfl, List.head?_map]
  cases ht : trimWs (title.flatMap slugMapChar) with
  | nil => simp [collapseWsAux]
  | cons c m =>
    have hw : isWsC c = false := head?_trimWs_false (by rw [ht]; rfl)
    rw [show collapseWsAux false (c :: m) = c :: collapseWsAux false m by
      simp [collapseWsAux, hw]]
    have hc : isAlnumC c = true := by
      rcases slug_source_chars title c (by rw [ht]; exact List.mem_cons_self c m) with ha | hws
      · exact ha
      · rw [hw] at hws; exact absurd hws (by simp)
    simp
    exact lower_or_digit_ne_hyphen (toLowerChar_alnum hc)

theorem slugify_getLast_ne (title : List Char) : (slugify title).getLast? ≠ some '-' := by
  unfold slugify
  rw [getLast?_toLowerL]
  cases hg : (collapseWsAux false (trimWs (title.flatMap slugMapChar))).getLast? with
  | none => simp
  | some y =>
    cases ht : (trimWs (title.flatMap slugMapChar)).getLast? with
    | none =>
      have hnil : trimWs (title.flatMap slugMapChar) = [] := by
        cases h : trimWs (title.flatMap slugMapChar) with
        | nil => rfl
        | cons a l => rw [h] at ht; exact absurd ht (getLast?_cons_ne_none a l)
      rw [hnil] at hg
      simp [collapseWsAux] at hg
    | some z =>
      have hz : isWsC z = false := getLast?_trimWs_false ht
      have hy : isAlnumC y = true :=
        collapseWsAux_getLast _ false (slug_source_chars title) ht hz hg
      simp
      exact lower_or_digit_ne_hyphen (toLowerChar_alnum hy)

theorem slugify_noDH (title : List Char) : hasDoubleHyphen (slugify title) = false := by
  unfold slugify
  rw [hasDoubleHyphen_toLowerL]
  exact collapseWsAux_noDH _ false (slug_source_chars title)

/-! ## Claim C6 -/

/-- C6, counterexample: the claim describes slugification as collapsing
    runs of non-alphanumeric characters to a hyphen, but the `slugify`
    package in strict mode strips punctuation instead: the title `v2.0`
    yields filename `2023-09-13-v20.mdx`, not the `v2-0` slug the claim
    predicts. -/
theorem generateFilename_counterexample :
    generateFilename ("2023-09-13").data ("v2.0").data = ("2023-09-13-v20.mdx").data ∧
    slugSpec ("v2.0").data = ("v2-0").data ∧
    slugify ("v2.0").data ≠ slugSpec ("v2.0").data := by decide

/-- C6, amended: a dated document's filename is `<date>-<slug>.mdx` and an
    undated one gets the literal `Unknown date-` prefix, where the slug
    lower-cases, keeps only alphanumerics (other punctuation is stripped,
    except that `$ % & < > |` expand to words), turns whitespace and
    hyphen runs into single hyphens, and carries no leading, trailing or
    doubled hyphen. -/
theorem generateFilename_amended (date title : List Char) :
    generateFilename date title = date ++ ('-' :: slugify title) ++ (".mdx").data ∧
    generateFilename unknownDate title
      = ("Unknown date-").data ++ slugify title ++ (".mdx").data ∧
    (∀ d ∈ slugify title, isLowerC d = true ∨ isDigitC d = true ∨ d = '-') ∧
    (slugify title).head? ≠ some '-' ∧
    (slugify title).getLast? ≠ some '-' ∧
    hasDoubleHyphen (slugify title) = false := by
  refine ⟨rfl, ?_, slugify_chars title, slugify_head_ne title, slugify_getLast_ne title,
    slugify_noDH title⟩
  show unknownDate ++ ('-' :: slugify title) ++ (".mdx").data = _
  have h1 : ("Unknown date-").data = unknownDate ++ ['-'] := by decide
  rw [h1]
  simp

/-- C6, witness for the amended theorem at the title `Hello World`. -/
theorem generateFilename_amended_witness :
    isLowerC 'h' = true ∨ isDigitC 'h' = true ∨ 'h' = '-' :=
  (generateFilename_amended ("2023-09-13").data ("Hello World").data).2.2.1 'h' (by decide)

/-! ## Claim C10 -/

theorem takeWhile_all {p : Char → Bool} : ∀ l : List Char,
    (∀ c ∈ l, p c = true) → l.takeWhile p = l := by
  intro l
  induction l with
  | nil => intro _; rfl
  | cons c rest ih =>
    intro h
    rw [List.takeWhile_cons_of_pos (h c (List.mem_cons_self c rest)),
      ih (fun x hx => h x (List.mem_cons_of_mem _ hx))]

theorem lastComponent_of_no_slash {s : List Char} (h : ∀ c ∈ s, c ≠ '/') :
    lastComponent s = s := by
  unfold lastComponent
  rw [takeWhile_all s.reverse, List.reverse_reverse]
  intro c hc
  exact decide_eq_true (h c (List.mem_reverse.mp hc))

theorem replaceFirst_mdx : ∀ pre : List Char, (∀ c ∈ pre, c ≠ '.') →
    replaceFirst (".mdx").data [] (pre ++ (".mdx").data) = pre := by
  intro pre
  induction pre with
  | nil => intro _; decide
  | cons c cs ih =>
    intro h
    have hc : c ≠ '.' := h c (List.mem_cons_self c cs)
    have hb : beginsWith (".mdx").data (c :: (cs ++ (".mdx").data)) = false := by
      show (('.' == c) && beginsWith ("mdx").data (cs ++ (".mdx").data)) = false
      rw [beq_eq_false_iff_ne.mpr (Ne.symm hc)]
      rfl
    rw [List.cons_append]
    show replaceFirst (".mdx").data [] (c :: (cs ++ (".mdx").data)) = c :: cs
    unfold replaceFirst
    rw [hb]
    simp
    exact ih (fun x hx => h x (List.mem_cons_of_mem _ hx))

theorem stripLeadingDate_eq (y1 y2 y3 y4 m1 m2 d1 d2 : Char) (slug : List Char)
    (hy1 : isDigitC y1 = true) (hy2 : isDigitC y2 = true)
    (hy3 : isDigitC y3 = true) (hy4 : isDigitC y4 = true)
    (hm1 : isDigitC m1 = true) (hm2 : isDigitC m2 = true)
    (hd1 : isDigitC d1 = true) (hd2 : isDigitC d2 = true) :
    stripLeadingDate ([y1, y2, y3, y4, '-', m1, m2, '-', d1, d2] ++ '-' :: slug)
      = slug := by
  show stripLeadingDate
      (y1 :: y2 :: y3 :: y4 :: '-' :: m1 :: m2 :: '-' :: d1 :: d2 :: '-' :: slug) = slug
  unfold stripLeadingDate
  simp [hy1, hy2, hy3, hy4, hm1, hm2, hd1, hd2]

theorem digit_not_slash_dot {c : Char} (h : isDigitC c = true) : c ≠ '/' ∧ c ≠ '.' := by
  have d : ∀ x ∈ digitChars, x ≠ '/' ∧ x ≠ '.' := by decide
  exact d c (contains_iff_mem.mp h)

theorem slugchar_not_slash_dot {c : Char}
    (h : isLowerC c = true ∨ isDigitC c = true ∨ c = '-') : c ≠ '/' ∧ c ≠ '.' := by
  have dl : ∀ x ∈ lowerChars, x ≠ '/' ∧ x ≠ '.' := by decide
  rcases h with h | h | h
  · exact dl c (contains_iff_mem.mp h)
  · exact digit_not_slash_dot h
  · rw [h]; exact ⟨by decide, by decide⟩

/-- C10, confirmed: for any title and any date of shape `YYYY-MM-DD`,
    `getSlugFromFilename` applied to `generateFilename date title` strips
    the date prefix and the `.mdx` extension and returns exactly the slug
    of the title. -/
theorem roundTrip_slug (title : List Char) (y1 y2 y3 y4 m1 m2 d1 d2 : Char)
    (hy1 : isDigitC y1 = true) (hy2 : isDigitC y2 = true)
    (hy3 : isDigitC y3 = true) (hy4 : isDigitC y4 = true)
    (hm1 : isDigitC m1 = true) (hm2 : isDigitC m2 = true)
    (hd1 : isDigitC d1 = true) (hd2 : isDigitC d2 = true) :
    getSlugFromFilename
        (generateFilename [y1, y2, y3, y4, '-', m1, m2, '-', d1, d2] title)
      = slugify title := by
  have hslug := slugify_chars title
  have hdate : ∀ c ∈ [y1, y2, y3, y4, '-', m1, m2, '-', d1, d2],
      c ≠ '/' ∧ c ≠ '.' := by
    intro c hc
    simp at hc
    rcases hc with rfl | rfl | rfl | rfl | rfl | rfl | rfl | rfl | rfl | rfl
    · exact digit_not_slash_dot hy1
    · exact digit_not_slash_dot hy2
    · exact digit_not_slash_dot hy3
    · exact digit_not_slash_dot hy4
    · exact ⟨by decide, by decide⟩
    · exact digit_not_slash_dot hm1
    · exact digit_not_slash_dot hm2
    · exact ⟨by decide, by decide⟩
    · exact digit_not_slash_dot hd1
    · exact digit_not_slash_dot hd2
  have hpre : ∀ c ∈ [y1, y2, y3, y4, '-', m1, m2, '-', d1, d2] ++ '-' :: slugify title,
      c ≠ '/' ∧ c ≠ '.' := by
    intro c hc
    rcases List.mem_append.mp hc with hc | hc
    · exact hdate c hc
    · rcases List.mem_cons.mp hc with rfl | hc
      · exact ⟨by decide, by decide⟩
      · exact slugchar_not_slash_dot (hslug c hc)
  have hfull : ∀ c ∈ generateFilename [y1, y2, y3, y4, '-', m1, m2, '-', d1, d2] title,
      c ≠ '/' := by
    intro c hc
    unfold generateFilename at hc
    rw [List.append_assoc] at hc
    rcases List.mem_append.mp hc with hc | hc
    · exact (hdate c hc).1
    · rcases List.mem_append.mp hc with hc | hc
      · rcases List.mem_cons.mp hc with rfl | hc
        · decide
        · exact (slugchar_not_slash_dot (hslug c hc)).1
      · have dm : ∀ x ∈ (".mdx").data, x ≠ '/' := by decide
        exact dm c hc
  unfold getSlugFromFilename
  rw [lastComponent_of_no_slash hfull]
  show stripLeadingDate (replaceFirst (".mdx").data []
    ([y1, y2, y3, y4, '-', m1, m2, '-', d1, d2] ++ ('-' :: slugify title)
      ++ (".mdx").data)) = slugify title
  rw [List.append_assoc]
  rw [show [y1, y2, y3, y4, '-', m1, m2, '-', d1, d2] ++ ('-' :: slugify title ++ (".mdx").data)
      = ([y1, y2, y3, y4, '-', m1, m2, '-', d1, d2] ++ '-' :: slugify title)
        ++ (".mdx").data by simp]
  rw [replaceFirst_mdx _ (fun c hc => (hpre c hc).2)]
  exact stripLeadingDate_eq y1 y2 y3 y4 m1 m2 d1 d2 (slugify title)
    hy1 hy2 hy3 hy4 hm1 hm2 hd1 hd2

/-- C10, witness: the round trip at date `2023-09-13` and title `Test
    Post` returns `test-post`. -/
theorem roundTrip_slug_witness :
    getSlugFromFilename (generateFilename ("2023-09-13").data ("Test Post").data)
      = slugify ("Test Post").data :=
  roundTrip_slug ("Test Post").data '2' '0' '2' '3' '0' '9' '1' '3'
    (by decide) (by decide) (by decide) (by decide)
    (by decide) (by decide) (by decide) (by decide)

/-! ## Claim C7 -/

/-- C7, confirmed: a document missing the author marker (cheerio's text of
    the empty selection is the empty string, and the `||` fallback also
    fires when the marker's text trims to nothing) yields exactly the
    `Unknown author` sentinel — never an empty string — and a missing or
    unparseable `datetime` attribute yields exactly `Unknown date`;
    `extractMetadata` is a total function, so neither case aborts the
    conversion. -/
theorem extractMetadata_sentinels (doc : RawDoc)
    (hAuth : doc.pAuthor = none ∨ trimWs (doc.pAuthor.getD []) = [])
    (hDate : doc.dtPublished = none ∨
      ∀ dt, doc.dtPublished = some dt → jsDateToIso dt = none) :
    (extractMetadata doc).author = unknownAuthor ∧
    (extractMetadata doc).author ≠ [] ∧
    (extractMetadata doc).date = unknownDate := by
  have hA : (extractMetadata doc).author = unknownAuthor := by
    show orEmpty (trimWs (doc.pAuthor.getD [])) unknownAuthor = unknownAuthor
    rcases hAuth with h | h
    · rw [h]
      rfl
    · rw [orEmpty, if_pos h]
  refine ⟨hA, ?_, ?_⟩
  · rw [hA]
    decide
  · show (match doc.dtPublished with
      | none => unknownDate
      | some dt => if dt = [] then unknownDate
          else (jsDateToIso dt).getD unknownDate) = unknownDate
    rcases hDate with h | h
    · rw [h]
    · cases hdt : doc.dtPublished with
      | none => rfl
      | some dt =>
        by_cases he : dt = []
        · simp [he]
        · simp [he, h dt hdt]

/-- C7, witness: a document with no author marker and the unparseable
    timestamp `not-a-date`. -/
theorem extractMetadata_sentinels_witness :
    (extractMetadata noMarkerDoc).author = unknownAuthor ∧
    (extractMetadata noMarkerDoc).author ≠ [] ∧
    (extractMetadata noMarkerDoc).date = unknownDate :=
  extractMetadata_sentinels noMarkerDoc (Or.inl rfl)
    (Or.inr (fun dt h => by rw [← Option.some.inj h]; decide))

/-! ## Claim C3 -/

theorem extractImagesGo_not_first (srcs : List (List Char)) :
    ∀ i, i ≠ 0 → ∀ im ∈ extractImagesGo i srcs, im.isFirst = false := by
  induction srcs with
  | nil => intro i _ im h; simp [extractImagesGo] at h
  | cons s rest ih =>
    intro i hi im h
    unfold extractImagesGo at h
    rcases List.mem_cons.mp h with rfl | h2
    · show (i == 0) = false
      exact beq_eq_false_iff_ne.mpr hi
    · exact ih (i + 1) (by omega) im h2

theorem processImagesGo_hero_const (localDir : List (List Char)) :
    ∀ (imgs : List ImageIn), (∀ im ∈ imgs, im.isFirst = false) →
    ∀ hero, (processImagesGo localDir imgs hero).2 = hero := by
  intro imgs
  induction imgs with
  | nil => intro _ hero; rfl
  | cons im rest ih =>
    intro h hero
    have h1 : im.isFirst = false := h im (List.mem_cons_self im rest)
    have step : (processImagesGo localDir (im :: rest) hero).2
        = (processImagesGo localDir rest hero).2 := by
      simp [processImagesGo, h1]
    rw [step]
    exact ih (fun x hx => h x (List.mem_cons_of_mem _ hx)) hero

/-- C3, counterexample: with a first image that does not resolve locally
    and a second image that does, the claim says the second (the first
    that resolves) becomes the hero; `processImages` promotes only the
    image carrying `isFirst`, so the hero stays the `Unknown image`
    sentinel and no image is designated at all. -/
theorem processImages_counterexample :
    heroSpec [("b.png").data] [("x.png").data, ("b.png").data]
      = imagesPosts ++ ("b.png").data ∧
    (processImages [("b.png").data]
        (extractImages [("x.png").data, ("b.png").data])).2 = unknownImage ∧
    unknownImage ≠ imagesPosts ++ ("b.png").data := by decide

/-- C3, amended: the hero is the first image in document order, and only
    when that image itself resolves locally; once set it is never
    overridden, and when the first image does not resolve no hero is
    designated even if later images resolve. -/
theorem processImages_hero_amended (localDir : List (List Char))
    (srcs : List (List Char)) :
    (processImages localDir (extractImages srcs)).2 =
      match srcs with
      | [] => unknownImage
      | s :: _ =>
        if elemL (lastComponent s) localDir then imagesPosts ++ lastComponent s
        else unknownImage := by
  cases srcs with
  | nil => rfl
  | cons s rest =>
    have htail : ∀ im ∈ extractImagesGo 1 rest, im.isFirst = false :=
      extractImagesGo_not_first rest 1 (by omega)
    have h1 : extractImages (s :: rest)
        = { src := s, isFirst := true } :: extractImagesGo 1 rest := by
      simp [extractImages, extractImagesGo]
    show (processImagesGo localDir (extractImages (s :: rest)) unknownImage).2 = _
    rw [h1]
    cases hex : elemL (lastComponent s) localDir with
    | true =>
      have h2 : (processImagesGo localDir
          ({ src := s, isFirst := true } :: extractImagesGo 1 rest) unknownImage).2
          = (processImagesGo localDir (extractImagesGo 1 rest)
              (imagesPosts ++ lastComponent s)).2 := by
        simp [processImagesGo, hex]
      rw [h2, processImagesGo_hero_const localDir _ htail]
      simp [hex]
    | false =>
      have h2 : (processImagesGo localDir
          ({ src := s, isFirst := true } :: extractImagesGo 1 rest) unknownImage).2
          = (processImagesGo localDir (extractImagesGo 1 rest) unknownImage).2 := by
        simp [processImagesGo, hex]
      rw [h2, processImagesGo_hero_const localDir _ htail]
      simp [hex]

/-! ## The rewriter pipeline as one `filterMap` -/

theorem rewriteBody_eq_filterMap (localDir : List (List Char)) (ps : List PImage) :
    ∀ body : List BNode,
    rewriteBody localDir ps body = body.filterMap (nodeStep localDir ps) := by
  intro body
  induction body with
  | nil => rfl
  | cons n rest ih =>
    unfold rewriteBody at ih ⊢
    by_cases hs : isShortTitleHeading n = true
    · rw [show removeTitleDups (n :: rest) = removeTitleDups rest by
        simp [removeTitleDups, List.filter_cons, hs]]
      rw [List.filterMap_cons]
      rw [show nodeStep localDir ps n = none by simp [nodeStep, hs]]
      exact ih
    · rw [show removeTitleDups (n :: rest) = n :: removeTitleDups rest by
        simp [removeTitleDups, List.filter_cons, hs]]
      cases n with
      | txt s =>
        rw [show rewriteImgsPass localDir ps (BNode.txt s :: removeTitleDups rest)
            = BNode.txt s :: rewriteImgsPass localDir ps (removeTitleDups rest) by
          simp [rewriteImgsPass, List.filterMap_cons]]
        rw [show convertHeadingsPass
              (BNode.txt s :: rewriteImgsPass localDir ps (removeTitleDups rest))
            = BNode.txt s
              :: convertHeadingsPass (rewriteImgsPass localDir ps (removeTitleDups rest)) by
          simp [convertHeadingsPass, convertHeadingNode]]
        rw [List.filterMap_cons]
        rw [show nodeStep localDir ps (BNode.txt s) = some (BNode.txt s) by
          simp [nodeStep, isShortTitleHeading]]
        rw [ih]
      | img s =>
        cases hr : rewriteImg localDir ps s with
        | none =>
          rw [show rewriteImgsPass localDir ps (BNode.img s :: removeTitleDups rest)
              = rewriteImgsPass localDir ps (removeTitleDups rest) by
            simp [rewriteImgsPass, List.filterMap_cons, hr]]
          rw [List.filterMap_cons]
          rw [show nodeStep localDir ps (BNode.img s) = none by
            simp [nodeStep, isShortTitleHeading, hr]]
          exact ih
        | some s2 =>
          rw [show rewriteImgsPass localDir ps (BNode.img s :: removeTitleDups rest)
              = BNode.img s2 :: rewriteImgsPass localDir ps (removeTitleDups rest) by
            simp [rewriteImgsPass, List.filterMap_cons, hr]]
          rw [show convertHeadingsPass
                (BNode.img s2 :: rewriteImgsPass localDir ps (removeTitleDups rest))
              = BNode.img s2
                :: convertHeadingsPass (rewriteImgsPass localDir ps (removeTitleDups rest)) by
            simp [convertHeadingsPass, convertHeadingNode]]
          rw [List.filterMap_cons]
          rw [show nodeStep localDir ps (BNode.img s) = some (BNode.img s2) by
            simp [nodeStep, isShortTitleHeading, hr]]
          rw [ih]
      | heading l t =>
        rw [show rewriteImgsPass localDir ps (BNode.heading l t :: removeTitleDups rest)
            = BNode.heading l t :: rewriteImgsPass localDir ps (removeTitleDups rest) by
          simp [rewriteImgsPass, List.filterMap_cons]]
        rw [show convertHeadingsPass
              (BNode.heading l t :: rewriteImgsPass localDir ps (removeTitleDups rest))
            = convertHeadingNode (BNode.heading l t)
              :: convertHeadingsPass (rewriteImgsPass localDir ps (removeTitleDups rest)) by
          simp [convertHeadingsPass]]
        rw [List.filterMap_cons]
        rw [show nodeStep localDir ps (BNode.heading l t)
            = some (convertHeadingNode (BNode.heading l t)) by
          simp [nodeStep, hs]]
        rw [ih]

theorem processImagesGo_map_src (localDir : List (List Char)) :
    ∀ (imgs : List ImageIn) (hero : List Char),
    (processImagesGo localDir imgs hero).1.map (fun p => p.originalSrc)
      = imgs.map (fun im => im.src) := by
  intro imgs
  induction imgs with
  | nil => intro hero; rfl
  | cons im rest ih =>
    intro hero
    simp [processImagesGo]
    exact ih _

theorem extractImagesGo_map_src : ∀ (srcs : List (List Char)) (i : Nat),
    (extractImagesGo i srcs).map (fun im => im.src) = srcs := by
  intro srcs
  induction srcs with
  | nil => intro i; rfl
  | cons s rest ih =>
    intro i
    simp [extractImagesGo]
    exact ih _

theorem processImages_map_src (localDir : List (List Char)) (srcs : List (List Char)) :
    (processImages localDir (extractImages srcs)).1.map (fun p => p.originalSrc) = srcs := by
  unfold processImages extractImages
  rw [processImagesGo_map_src, extractImagesGo_map_src]

theorem find?_of_nodup_src : ∀ (ps : List PImage),
    (ps.map (fun p => p.originalSrc)).Nodup →
    ∀ p ∈ ps, ps.find? (fun q => q.originalSrc == p.originalSrc) = some p := by
  intro ps
  induction ps with
  | nil => intro _ p hp; simp at hp
  | cons q rest ih =>
    intro hnd p hp
    rw [List.map_cons, List.nodup_cons] at hnd
    obtain ⟨hq, hrest⟩ := hnd
    rcases List.mem_cons.mp hp with rfl | hp2
    · exact List.find?_cons_of_pos _ (by simp)
    · have hne : (q.originalSrc == p.originalSrc) = false := by
        apply beq_eq_false_iff_ne.mpr
        intro he
        apply hq
        rw [he]
        exact List.mem_map_of_mem _ hp2
      rw [List.find?_cons_of_neg _ (by simp [hne])]
      exact ih hrest p hp2

theorem mem_body_of_mem_ps (localDir : List (List Char)) (body : List BNode) :
    ∀ p ∈ (processImages localDir (extractImages (imgSrcs body))).1,
      BNode.img p.originalSrc ∈ body := by
  intro p hp
  have h1 : p.originalSrc
      ∈ (processImages localDir (extractImages (imgSrcs body))).1.map
          (fun p => p.originalSrc) :=
    List.mem_map_of_mem _ hp
  rw [processImages_map_src] at h1
  unfold imgSrcs at h1
  obtain ⟨n, hn, he⟩ := List.mem_filterMap.mp h1
  cases n with
  | img s =>
    simp at he
    rw [← he]
    exact hn
  | heading l t => simp at he
  | txt s => simp at he

/-! ## Claim C4 -/

/-- C4, counterexample: when the same source URL appears twice, the lookup
    by `originalSrc` finds the `isFirst` record for both elements, so the
    second (non-hero, locally resolved) image is deleted along with the
    hero instead of being kept with its local path: the rewritten body is
    empty. -/
theorem rewriteBody_counterexample :
    ((processImages c4local (extractImages (imgSrcs c4body))).1.map
        (fun p => (p.isFirst, p.localFileExists, p.localPath)))
      = [(true, true, ("/images/posts/a.png").data),
         (false, true, ("/images/posts/a.png").data)] ∧
    rewriteBody c4local (processImages c4local (extractImages (imgSrcs c4body))).1 c4body
      = [] := by decide

/-- C4, amended: provided the body's image sources are pairwise distinct,
    the rewriter deletes every element of the hero image (the resolved
    `isFirst` record maps to `none` under the per-node step, and the
    pipeline is the `filterMap` of that step), and every non-hero image
    that resolved locally is kept in the body with its local path
    substituted; an inline duplicate of the hero's source is instead
    deleted with the hero. -/
theorem rewriteBody_hero_amended (localDir : List (List Char)) (body : List BNode)
    (hnd : (imgSrcs body).Nodup) :
    rewriteBody localDir (processImages localDir (extractImages (imgSrcs body))).1 body
      = body.filterMap
          (nodeStep localDir (processImages localDir (extractImages (imgSrcs body))).1) ∧
    ∀ p ∈ (processImages localDir (extractImages (imgSrcs body))).1,
      p.localFileExists = true →
      (p.isFirst = true →
        nodeStep localDir (processImages localDir (extractImages (imgSrcs body))).1
          (BNode.img p.originalSrc) = none) ∧
      (p.isFirst = false →
        nodeStep localDir (processImages localDir (extractImages (imgSrcs body))).1
          (BNode.img p.originalSrc) = some (BNode.img p.localPath) ∧
        BNode.img p.localPath ∈
          rewriteBody localDir (processImages localDir (extractImages (imgSrcs body))).1
            body) := by
  refine ⟨rewriteBody_eq_filterMap _ _ body, ?_⟩
  intro p hp hex
  have hmapnd : ((processImages localDir (extractImages (imgSrcs body))).1.map
      (fun p => p.originalSrc)).Nodup := by
    rw [processImages_map_src]
    exact hnd
  have hfind := find?_of_nodup_src _ hmapnd p hp
  constructor
  · intro hfirst
    simp [nodeStep, isShortTitleHeading, rewriteImg, hfind, hex, hfirst]
  · intro hfirst
    have hstep : nodeStep localDir (processImages localDir (extractImages (imgSrcs body))).1
        (BNode.img p.originalSrc) = some (BNode.img p.localPath) := by
      simp [nodeStep, isShortTitleHeading, rewriteImg, hfind, hex, hfirst]
    refine ⟨hstep, ?_⟩
    rw [rewriteBody_eq_filterMap]
    exact List.mem_filterMap.mpr
      ⟨BNode.img p.originalSrc, mem_body_of_mem_ps localDir body p hp, hstep⟩

/-- C4, witness for the amended theorem: a body with one resolving image;
    its (hero) record is deleted by the per-node step. -/
theorem rewriteBody_hero_amended_witness :
    nodeStep c4local
        (processImages c4local
          (extractImages (imgSrcs [BNode.img (("a.png").data)]))).1
        (BNode.img c4pimg.originalSrc) = none :=
  ((rewriteBody_hero_amended c4local [BNode.img (("a.png").data)] (by decide)).2
    c4pimg (by decide) (by decide)).1 (by decide)

/-! ## Claim C5 -/

/-- C5, counterexample: an `h3` whose text is under 100 characters is
    removed by the title-duplicate pass before heading conversion runs, so
    the body `[h3 "Hello"]` rewrites to the empty body, not to the
    `### Hello` heading the claim predicts. -/
theorem headings_counterexample :
    rewriteBody [] [] [BNode.heading 3 (("Hello").data)] = [] ∧
    [BNode.txt (mdHeading 3 (("Hello").data))] ≠ ([] : List BNode) := by decide

/-- C5, amended: headings h4 through h6 are always converted to the
    corresponding hashes, a space and the heading text; h3 is converted
    only when its trimmed text is 100 characters or longer, because the
    title-duplicate pass removes h1, h2 and h3 nodes whose trimmed text is
    under 100 characters before the conversion pass runs. -/
theorem headings_amended (localDir : List (List Char)) (ps : List PImage)
    (body : List BNode) (l : Nat) (t : List Char) :
    rewriteBody localDir ps body = body.filterMap (nodeStep localDir ps) ∧
    (4 ≤ l → l ≤ 6 →
      nodeStep localDir ps (BNode.heading l t) = some (BNode.txt (mdHeading l t))) ∧
    ((trimWs t).length < 100 → nodeStep localDir ps (BNode.heading 3 t) = none) ∧
    (100 ≤ (trimWs t).length →
      nodeStep localDir ps (BNode.heading 3 t) = some (BNode.txt (mdHeading 3 t))) := by
  refine ⟨rewriteBody_eq_filterMap localDir ps body, ?_, ?_, ?_⟩
  · intro h4 h6
    have e1 : (l == 1) = false := beq_eq_false_iff_ne.mpr (by omega)
    have e2 : (l == 2) = false := beq_eq_false_iff_ne.mpr (by omega)
    have e3 : (l == 3) = false := beq_eq_false_iff_ne.mpr (by omega)
    have hc : (decide (3 ≤ l) && decide (l ≤ 6)) = true := by
      rw [decide_eq_true (by omega : 3 ≤ l), decide_eq_true h6]
      rfl
    simp [nodeStep, isShortTitleHeading, e1, e2, e3, convertHeadingNode, hc]
  · intro hlen
    simp [nodeStep, isShortTitleHeading, hlen]
  · intro hlen
    have hd : decide ((trimWs t).length < 100) = false :=
      decide_eq_false (by omega)
    simp [nodeStep, isShortTitleHeading, hd, convertHeadingNode]

/-- C5, witness for the amended theorem: an h4 with short text is
    converted to `#### `-prefixed text. -/
theorem headings_amended_witness :
    nodeStep [] [] (BNode.heading 4 (("Hi").data))
      = some (BNode.txt (mdHeading 4 (("Hi").data))) :=
  (headings_amended [] [] [] 4 (("Hi").data)).2.1 (by decide) (by decide)

/-! ## Claim C1 -/

/-- C1, counterexample: two documents with the same title and date but
    different authors and bodies convert to the same filename; the batch
    driver consults only the pre-run `existingMDX` listing, so neither is
    reported as a skip or collision — both count as successes and the
    second write silently replaces the first document's content. -/
theorem convertAllFiles_counterexample :
    (convertFile [] cexDocA).filename = (convertFile [] cexDocB).filename ∧
    (convertAllFiles [] [] [cexDocA, cexDocB]).skipCount = 0 ∧
    (convertAllFiles [] [] [cexDocA, cexDocB]).successCount = 2 ∧
    readDir (convertAllFiles [] [] [cexDocA, cexDocB]).dir
        (convertFile [] cexDocA).filename
      = some (convertFile [] cexDocB).content ∧
    (convertFile [] cexDocA).content ≠ (convertFile [] cexDocB).content := by decide

/-- C1, amended: only filenames already present in the output directory
    before the run are skipped (and nothing is written for them); two
    documents of one run that convert to the same fresh filename are both
    counted as successes, no collision is reported, and the second
    silently overwrites the first — the existing-file listing is never
    updated during the run. -/
theorem convertAllFiles_amended (localDir existingMDX : List (List Char))
    (d1 d2 : ParsedDoc)
    (hsame : (convertFile localDir d1).filename = (convertFile localDir d2).filename)
    (hnew : elemL (convertFile localDir d1).filename existingMDX = false) :
    ((convertAllFiles localDir existingMDX [d1, d2]).skipCount = 0 ∧
     (convertAllFiles localDir existingMDX [d1, d2]).successCount = 2 ∧
     readDir (convertAllFiles localDir existingMDX [d1, d2]).dir
         (convertFile localDir d1).filename
       = some (convertFile localDir d2).content) ∧
    ∀ d : ParsedDoc, elemL (convertFile localDir d).filename existingMDX = true →
      (convertAllFiles localDir existingMDX [d]).dir = [] ∧
      (convertAllFiles localDir existingMDX [d]).skipCount = 1 := by
  have hnew2 : elemL (convertFile localDir d2).filename existingMDX = false := by
    rw [← hsame]
    exact hnew
  constructor
  · refine ⟨?_, ?_, ?_⟩
    · simp [convertAllFiles, batchStep, hnew, hnew2]
    · simp [convertAllFiles, batchStep, hnew, hnew2]
    · have hred : (convertAllFiles localDir existingMDX [d1, d2]).dir
          = writeFile
              (writeFile [] (convertFile localDir d1).filename
                (convertFile localDir d1).content)
              (convertFile localDir d2).filename (convertFile localDir d2).content := by
        simp [convertAllFiles, batchStep, hnew, hnew2]
      rw [hred]
      unfold readDir writeFile
      rw [← hsame]
      simp
  · intro d hd
    constructor
    · simp [convertAllFiles, batchStep, hd]
    · simp [convertAllFiles, batchStep, hd]

/-- C1, witness for the amended theorem at the two concrete documents of
    the counterexample. -/
theorem convertAllFiles_amended_witness :
    (convertAllFiles [] [] [cexDocA, cexDocB]).skipCount = 0 ∧
    (convertAllFiles [] [] [cexDocA, cexDocB]).successCount = 2 ∧
    readDir (convertAllFiles [] [] [cexDocA, cexDocB]).dir
        (convertFile [] cexDocA).filename
      = some (convertFile [] cexDocB).content :=
  (convertAllFiles_amended [] [] cexDocA cexDocB (by decide) (by decide)).1

/-! ## Claim C2 -/

/-- C2, counterexample: the claim promises a non-empty tag set for every
    converted document, but `convertFile` hard-codes `const tags = []`
    (its step 2 is "Skip tag generation for now"), so a concrete document
    converts with an empty tag set. -/
theorem convertFile_tags_counterexample :
    (convertFile [] cexDocA).tags = [] := rfl

/-- C2, amended: the tag set of every record `convertFile` produces is
    empty — tag generation is skipped in the pipeline — and the
    frontmatter therefore contains the commented-out placeholder line
    instead of a tags list.  (The `generateTags` function itself never
    returns fewer than three tags; that is the amended C8 theorem.) -/
theorem convertFile_tags_amended (localDir : List (List Char)) (doc : ParsedDoc) :
    (convertFile localDir doc).tags = [] ∧
    ∃ u v, (convertFile localDir doc).content = u ++ noTagsLine ++ v := by
  constructor
  · rfl
  · refine ⟨("---\ntitle: \"").data ++ (extractMetadata doc.raw).title
      ++ ("\"\nauthor: \"").data ++ (extractMetadata doc.raw).author
      ++ ("\"\ndate: \"").data ++ (extractMetadata doc.raw).date
      ++ ("\"\nheroImage: \"").data
      ++ (processImages localDir (extractImages (imgSrcs doc.body))).2
      ++ ("\"\n").data,
      ("\n---").data ++ ('\n' :: '\n' :: convertContentToMDX localDir
        (processImages localDir (extractImages (imgSrcs doc.body))).1 doc.body), ?_⟩
    show generateFrontmatter _ ([] : List (List Char)) ++ _ = _
    unfold generateFrontmatter
    simp [List.append_assoc]

/-! ## Lower-case preservation through the Porter stemmer -/

theorem lall_take {w : List Char} {n : Nat}
    (h : ∀ c ∈ w, isLowerC c = true) : ∀ c ∈ w.take n, isLowerC c = true :=
  fun c hc => h c (List.take_subset n w hc)

theorem lall_dropLastN {w : List Char} {k : Nat}
    (h : ∀ c ∈ w, isLowerC c = true) : ∀ c ∈ dropLastN w k, isLowerC c = true :=
  lall_take h

theorem lall_append {u v : List Char}
    (hu : ∀ c ∈ u, isLowerC c = true) (hv : ∀ c ∈ v, isLowerC c = true) :
    ∀ c ∈ u ++ v, isLowerC c = true := by
  intro c hc
  rcases List.mem_append.mp hc with h | h
  · exact hu c h
  · exact hv c h

theorem lall_replaceSuffix {w rep : List Char} {k : Nat}
    (hw : ∀ c ∈ w, isLowerC c = true) (hrep : ∀ c ∈ rep, isLowerC c = true) :
    ∀ c ∈ replaceSuffix w k rep, isLowerC c = true :=
  lall_append (lall_dropLastN hw) hrep

theorem lall_step1a {w : List Char} (h : ∀ c ∈ w, isLowerC c = true) :
    ∀ c ∈ step1a w, isLowerC c = true := by
  unfold step1a
  repeat' split
  all_goals first
    | exact h
    | exact lall_dropLastN h
    | exact lall_replaceSuffix h (by decide)

theorem lall_step1bPost {w : List Char} (h : ∀ c ∈ w, isLowerC c = true) :
    ∀ c ∈ step1bPost w, isLowerC c = true := by
  unfold step1bPost
  repeat' split
  all_goals first
    | exact h
    | exact lall_dropLastN h
    | exact lall_append h (by decide)

theorem lall_step1b {w : List Char} (h : ∀ c ∈ w, isLowerC c = true) :
    ∀ c ∈ step1b w, isLowerC c = true := by
  unfold step1b
  repeat' split
  all_goals first
    | exact h
    | exact lall_replaceSuffix h (by decide)
    | exact lall_step1bPost (lall_dropLastN h)

theorem lall_step1c {w : List Char} (h : ∀ c ∈ w, isLowerC c = true) :
    ∀ c ∈ step1c w, isLowerC c = true := by
  unfold step1c
  repeat' split
  all_goals first
    | exact h
    | exact lall_replaceSuffix h (by decide)

theorem lall_tryRules {cond : List Char → List Char → Bool}
    {rules : List (List Char × List Char)} {w : List Char}
    (h : ∀ c ∈ w, isLowerC c = true)
    (hr : ∀ r ∈ rules, ∀ c ∈ r.2, isLowerC c = true) :
    ∀ c ∈ tryRules cond rules w, isLowerC c = true := by
  unfold tryRules
  cases hf : rules.find? (fun r => endsWithL w r.1) with
  | none => exact h
  | some r =>
    show ∀ c ∈ (if cond r.1 (dropLastN w r.1.length) = true
        then dropLastN w r.1.length ++ r.2 else w), isLowerC c = true
    by_cases hc : cond r.1 (dropLastN w r.1.length) = true
    · rw [if_pos hc]
      exact lall_append (lall_dropLastN h) (hr r (List.mem_of_find?_eq_some hf))
    · rw [if_neg hc]
      exact h

theorem lall_step2 {w : List Char} (h : ∀ c ∈ w, isLowerC c = true) :
    ∀ c ∈ step2 w, isLowerC c = true :=
  lall_tryRules h (by decide)

theorem lall_step3 {w : List Char} (h : ∀ c ∈ w, isLowerC c = true) :
    ∀ c ∈ step3 w, isLowerC c = true :=
  lall_tryRules h (by decide)

theorem lall_step4 {w : List Char} (h : ∀ c ∈ w, isLowerC c = true) :
    ∀ c ∈ step4 w, isLowerC c = true :=
  lall_tryRules h (by decide)

theorem lall_step5a {w : List Char} (h : ∀ c ∈ w, isLowerC c = true) :
    ∀ c ∈ step5a w, isLowerC c = true := by
  unfold step5a
  repeat' split
  all_goals first
    | exact h
    | exact lall_dropLastN h

theorem lall_step5b {w : List Char} (h : ∀ c ∈ w, isLowerC c = true) :
    ∀ c ∈ step5b w, isLowerC c = true := by
  unfold step5b
  repeat' split
  all_goals first
    | exact h
    | exact lall_dropLastN h

theorem lall_porterStem {w : List Char} (h : ∀ c ∈ w, isLowerC c = true) :
    ∀ c ∈ porterStem w, isLowerC c = true :=
  lall_step5b (lall_step5a (lall_step4 (lall_step3 (lall_step2
    (lall_step1c (lall_step1b (lall_step1a h)))))))

theorem lall_toLowerL_alpha {w : List Char} (h : ∀ c ∈ w, isAlphaC c = true) :
    ∀ c ∈ toLowerL w, isLowerC c = true := by
  intro c hc
  obtain ⟨y, hy, he⟩ := List.mem_map.mp hc
  have hy2 : isLowerC y = true ∨ isUpperC y = true := by simpa [isAlphaC] using h y hy
  rcases hy2 with hl | hu
  · have hyu : isUpperC y = false := by
      have d : ∀ x ∈ lowerChars, isUpperC x = false := by decide
      exact d y (contains_iff_mem.mp hl)
    rw [← he, toLowerChar_of_not_upper hyu]
    exact hl
  · rw [← he]
    exact contains_iff_mem.mpr (toLowerChar_mem_lower hu)

theorem lall_stemJS {w : List Char} (h : ∀ c ∈ w, isAlphaC c = true) :
    ∀ c ∈ stemJS w, isLowerC c = true :=
  lall_porterStem (lall_toLowerL_alpha h)

/-! ## Where the tags come from: the membership chain of `generateTags` -/

theorem bumpCount_keys : ∀ (m : List (List Char × Nat)) (k w : List Char) (c : Nat),
    (w, c) ∈ bumpCount m k → w = k ∨ ∃ c', (w, c') ∈ m := by
  intro m
  induction m with
  | nil =>
    intro k w c h
    simp [bumpCount] at h
    exact Or.inl h.1
  | cons p rest ih =>
    intro k w c h
    cases p with
    | mk k' cv =>
      unfold bumpCount at h
      split at h
      · rcases List.mem_cons.mp h with he | h2
        · left
          rename_i hbeq
          have : k' = k := beq_iff_eq.mp hbeq
          rw [← this]
          exact congrArg Prod.fst he
        · exact Or.inr ⟨c, List.mem_cons_of_mem _ h2⟩
      · rcases List.mem_cons.mp h with he | h2
        · have hw : w = k' := congrArg Prod.fst he
          exact Or.inr ⟨cv, by rw [hw]; exact List.mem_cons_self _ _⟩
        · rcases ih k w c h2 with h3 | ⟨c', h3⟩
          · exact Or.inl h3
          · exact Or.inr ⟨c', List.mem_cons_of_mem _ h3⟩

theorem countStems_keys : ∀ (tokens : List (List Char)) (m : List (List Char × Nat))
    (w : List Char) (c : Nat),
    (w, c) ∈ tokens.foldl (fun m t => bumpCount m (stemJS t)) m →
    (∃ c', (w, c') ∈ m) ∨ ∃ t ∈ tokens, w = stemJS t := by
  intro tokens
  induction tokens with
  | nil => intro m w c h; exact Or.inl ⟨c, h⟩
  | cons t rest ih =>
    intro m w c h
    rw [List.foldl_cons] at h
    rcases ih (bumpCount m (stemJS t)) w c h with ⟨c', hc'⟩ | ⟨t', ht', he⟩
    · rcases bumpCount_keys m (stemJS t) w c' hc' with he | ⟨c'', hc''⟩
      · exact Or.inr ⟨t, List.mem_cons_self _ _, he⟩
      · exact Or.inl ⟨c'', hc''⟩
    · exact Or.inr ⟨t', List.mem_cons_of_mem _ ht', he⟩

theorem mem_insertScored {x : List Char × Nat} : ∀ {l : List (List Char × Nat)}
    {y : List Char × Nat}, y ∈ insertScored x l → y = x ∨ y ∈ l := by
  intro l
  induction l with
  | nil => intro y h; simp [insertScored] at h; exact Or.inl h
  | cons z rest ih =>
    intro y h
    unfold insertScored at h
    split at h
    · rcases List.mem_cons.mp h with rfl | h2
      · exact Or.inr (List.mem_cons_self _ _)
      · rcases ih h2 with h3 | h3
        · exact Or.inl h3
        · exact Or.inr (List.mem_cons_of_mem _ h3)
    · rcases List.mem_cons.mp h with rfl | h2
      · exact Or.inl rfl
      · exact Or.inr h2

theorem mem_sortFold : ∀ (l acc : List (List Char × Nat)) (y : List Char × Nat),
    y ∈ l.foldl (fun acc x => insertScored x acc) acc → y ∈ acc ∨ y ∈ l := by
  intro l
  induction l with
  | nil => intro acc y h; exact Or.inl h
  | cons x rest ih =>
    intro acc y h
    rw [List.foldl_cons] at h
    rcases ih (insertScored x acc) y h with h2 | h2
    · rcases mem_insertScored h2 with h3 | h3
      · exact Or.inr (h3 ▸ List.mem_cons_self _ _)
      · exact Or.inl h3
    · exact Or.inr (List.mem_cons_of_mem _ h2)

theorem elemL_cons_false {y x : List Char} {seen : List (List Char)}
    (h : elemL y (x :: seen) = false) : elemL y seen = false := by
  by_cases h2 : elemL y seen = true
  · have h3 : y ∈ x :: seen := List.mem_cons_of_mem _ (elemL_iff.mp h2)
    rw [elemL_iff.mpr h3] at h
    exact absurd h (by simp)
  · simpa using h2

theorem dedupFirstGo_props : ∀ (l seen : List (List Char)),
    (dedupFirstGo seen l).Nodup ∧
    ∀ x ∈ dedupFirstGo seen l, x ∈ l ∧ elemL x seen = false := by
  intro l
  induction l with
  | nil =>
    intro seen
    exact ⟨List.nodup_nil, by simp [dedupFirstGo]⟩
  | cons x rest ih =>
    intro seen
    unfold dedupFirstGo
    by_cases hx : elemL x seen = true
    · rw [if_pos hx]
      obtain ⟨h1, h2⟩ := ih seen
      exact ⟨h1, fun y hy => ⟨List.mem_cons_of_mem _ (h2 y hy).1, (h2 y hy).2⟩⟩
    · rw [if_neg hx]
      obtain ⟨h1, h2⟩ := ih (x :: seen)
      constructor
      · rw [List.nodup_cons]
        refine ⟨?_, h1⟩
        intro hmem
        have hfalse := (h2 x hmem).2
        have hself : elemL x (x :: seen) = true :=
          elemL_iff.mpr (List.mem_cons_self _ _)
        rw [hfalse] at hself
        exact absurd hself (by simp)
      · intro y hy
        rcases List.mem_cons.mp hy with rfl | hy2
        · exact ⟨List.mem_cons_self _ _, by simpa using hx⟩
        · obtain ⟨ha, hb⟩ := h2 y hy2
          exact ⟨List.mem_cons_of_mem _ ha, elemL_cons_false hb⟩

theorem topTagsOf_nodup (text : List Char) : (topTagsOf text).Nodup :=
  List.Nodup.sublist (List.take_sublist _ _) (dedupFirstGo_props _ []).1

theorem topTagsOf_le_five (text : List Char) : (topTagsOf text).length ≤ 5 := by
  unfold topTagsOf
  rw [List.length_take]
  omega

theorem topTagsOf_mem (text : List Char) :
    ∀ tag ∈ topTagsOf text, ∃ t ∈ tokensOf text, tag = stemJS t := by
  intro tag h
  unfold topTagsOf at h
  have h1 := List.take_subset _ _ h
  have h2 := ((dedupFirstGo_props _ []).2 tag h1).1
  obtain ⟨pair, hp, he⟩ := List.mem_map.mp h2
  have h3 := List.take_subset _ _ hp
  rcases mem_sortFold _ [] pair h3 with h5 | h5
  · simp at h5
  · unfold scoredWordsOf at h5
    obtain ⟨q, hq, he2⟩ := List.mem_map.mp h5
    have hq2 : (q.1, q.2) ∈ countStems (tokensOf text) := by
      rw [Prod.mk.eta]
      exact hq
    rcases countStems_keys (tokensOf text) [] q.1 q.2 hq2 with ⟨c', hc'⟩ | ⟨t, ht, hst⟩
    · simp at hc'
    · refine ⟨t, ht, ?_⟩
      rw [← he]
      have : pair.1 = q.1 := by rw [← he2]
      rw [this, hst]

theorem tokensOf_alpha (text : List Char) :
    ∀ t ∈ tokensOf text, ∀ c ∈ t, isAlphaC c = true := by
  intro t ht
  unfold tokensOf at ht
  have h2 := (List.mem_filter.mp ht).2
  have h3 : t.all isAlphaC = true := by
    have := Bool.and_elim_right h2
    exact this
  intro c hc
  exact List.all_eq_true.mp h3 c hc

/-! ## Claims C8 and C9 -/

/-- C8, counterexample: the single-token text `developmental` stems to
    `development`, which yields one scored tag; the fallback then appends
    `development` again (with `programming` and `software`) without
    re-deduplicating, so the returned tags are not unique. -/
theorem generateTags_counterexample :
    generateTags ("developmental").data
      = [("development").data, ("development").data,
         ("programming").data, ("software").data] ∧
    ¬ (generateTags ("developmental").data).Nodup := by
  constructor
  · decide
  · decide

set_option maxHeartbeats 2000000 in
/-- C8, amended: `generateTags` always returns between 3 and 5 tags, each
    consisting only of lower-case letters; the scored tags before the
    fallback are unique, and the result is unique whenever at least three
    scored tags were found (so no fallback is appended) — but a scored
    stem may duplicate an appended fallback tag when fewer than three
    remain. -/
theorem generateTags_amended (text : List Char) :
    (3 ≤ (generateTags text).length ∧ (generateTags text).length ≤ 5) ∧
    (∀ tag ∈ generateTags text, ∀ c ∈ tag, isLowerC c = true) ∧
    (topTagsOf text).Nodup ∧
    (3 ≤ (topTagsOf text).length → (generateTags text).Nodup) := by
  have hle5 := topTagsOf_le_five text
  refine ⟨?_, ?_, topTagsOf_nodup text, ?_⟩
  · simp only [generateTags]
    by_cases hlt : (topTagsOf text).length < 3
    · rw [if_pos hlt]
      rw [List.length_take, List.length_append]
      have : fallbackTags.length = 3 := by decide
      omega
    · rw [if_neg hlt]
      rw [List.length_take]
      omega
  · intro tag h
    have hmem : tag ∈ topTagsOf text ∨ tag ∈ fallbackTags := by
      simp only [generateTags] at h
      have h1 := List.take_subset _ _ h
      by_cases hlt : (topTagsOf text).length < 3
      · rw [if_pos hlt] at h1
        exact List.mem_append.mp h1
      · rw [if_neg hlt] at h1
        exact Or.inl h1
    rcases hmem with h1 | h1
    · obtain ⟨t, ht, rfl⟩ := topTagsOf_mem text tag h1
      exact lall_stemJS (tokensOf_alpha text t ht)
    · have d : ∀ tag ∈ fallbackTags, ∀ c ∈ tag, isLowerC c = true := by decide
      exact d tag h1
  · intro h3
    simp only [generateTags]
    rw [if_neg (by omega)]
    exact List.Nodup.sublist (List.take_sublist _ _) (topTagsOf_nodup text)

/-- C8, witness: on `javascript python database` three distinct stems are
    scored, so the returned tags are unique. -/
theorem generateTags_amended_witness :
    (generateTags ("javascript python database").data).Nodup :=
  (generateTags_amended ("javascript python database").data).2.2.2 (by decide)

/-- C9, counterexample: the claim keys the 1.5 length boost on the surface
    token, but the source tests `word.length` on the stem: the token
    `happiness` (9 characters) stems to `happi` (5 characters), so its
    score is 1 (doubled representation: 2), not the 1.5 (doubled: 3) the
    claim's surface-keyed formula gives. -/
theorem scoredWords_counterexample :
    scoredWordsOf ("happiness").data = [(("happi").data, 2)] ∧
    scoreSpecSurface 1 ("happi").data ("happiness").data = 3 ∧
    (2 : Nat) ≠ 3 := by
  refine ⟨by decide, by decide, by decide⟩

/-- C9, amended: every stem counted by the classifier is scored as its
    frequency, doubled exactly when the stem is in the fixed vocabulary,
    and multiplied by 1.5 exactly when the stem (not the surface token) is
    longer than six characters — in the doubled representation, frequency
    times 2-or-1 for the vocabulary boost times 3-or-2 for the length
    boost. -/
theorem scoredWords_amended (text w : List Char) (c : Nat)
    (h : (w, c) ∈ countStems (tokensOf text)) :
    (w, c * (if elemL w techTerms then 2 else 1)
        * (if 6 < w.length then 3 else 2)) ∈ scoredWordsOf text := by
  unfold scoredWordsOf
  apply List.mem_map.mpr
  exact ⟨(w, c), h, rfl⟩

/-- C9, witness for the amended theorem: the stem `happi` of `happiness`
    appears with its frequency unboosted by vocabulary or length. -/
theorem scoredWords_amended_witness :
    (("happi").data, 1 * (if elemL ("happi").data techTerms then 2 else 1)
        * (if 6 < ("happi").data.length then 3 else 2))
      ∈ scoredWordsOf ("happiness").data :=
  scoredWords_amended ("happiness").data ("happi").data 1 (by decide)

end Blog
